import Mathlib

/-!
# Separate-chaining hash table (full_hashtable/hashtables.c)

Shallow embedding of the C program and proofs about it.

Modelling conventions.

* A C string (a NUL-terminated char array) is represented by its content: the list of
  bytes before the terminator, each an unsigned char in 1..255 (type CStr).
  strcmp(a, b) == 0 is equality of contents, strdup is the identity on contents.
  Arguments are contents: a caller passing a pointer that aliases storage owned by the
  table is outside the model.
* A chain (LinkedPair nodes linked through next, ending in NULL) is the list of its
  nodes in link order; NULL is the empty list.
* A HashTable is its int capacity and the list of bucket slots of storage.
  The number of slots is kept apart from capacity, as in C.
* unsigned long is 64 bits wide, int and unsigned int 32 bits wide (LP64); signed
  overflow is two's complement wrap-around.
* malloc, calloc and strdup succeed, except calloc with a negative count (converted to a
  huge size_t), which yields NULL: a storage without slots.
* Undefined behaviour that the program can reach is an explicit Fault.
* Text written to stderr is returned as a list of diagnostics.
-/

namespace HashTables

/-- Content of a NUL-terminated C string: its bytes before the terminator. -/
structure CStr where
  bytes : List Nat
  valid : ∀ b ∈ bytes, 0 < b ∧ b < 256

instance : DecidableEq CStr := fun a b =>
  decidable_of_iff (a.bytes = b.bytes)
    ⟨fun h => by cases a; cases b; cases h; rfl, fun h => h ▸ rfl⟩

/-- The empty string. -/
def CStr.empty : CStr := ⟨[], by simp⟩

/-- Node of a chain (struct LinkedPair); the next pointer is the rest of the list. -/
structure LinkedPair where
  key : CStr
  value : CStr
  deriving DecidableEq

/-- A bucket's linked list, head first; the empty list is NULL. -/
abbrev Chain := List LinkedPair

/-- Table (struct HashTable): capacity and the slots of storage. -/
structure HashTable where
  capacity : Int
  storage : List Chain
  deriving DecidableEq

/-- Undefined behaviour reachable by the program. -/
inductive Fault where
  | div_by_zero
  | out_of_bounds
  | unset_pointer
  | use_after_free
  deriving DecidableEq

deriving instance DecidableEq for Except

/-- A line printed to stderr. -/
inductive Diag where
  | unable_to_remove (key : CStr)
  | unable_to_retrieve (key : CStr)
  deriving DecidableEq

/-- Width of unsigned long. -/
def ULONG_MOD : Nat := 18446744073709551616

/-- Width of unsigned int. -/
def UINT_MOD : Nat := 4294967296

/-- Largest int. -/
def INT_MAX : Int := 2147483647

/-- Result of an int computation: wrap-around into [-2^31, 2^31). -/
def wrap_int (x : Int) : Int := (x + 2147483648) % 4294967296 - 2147483648

/-- create_pair: a fresh node with copies of key and value and next = NULL. -/
def create_pair (key value : CStr) : LinkedPair := { key := key, value := value }

/-- The while loop of hash: hash = ((hash << 5) + hash) + c for each byte c,
each operation in unsigned long arithmetic. -/
def hash_loop : List Nat → Nat → Nat
  | [], h => h
  | c :: u_str, h =>
    hash_loop u_str (((((h <<< 5) % ULONG_MOD) + h) % ULONG_MOD + c) % ULONG_MOD)

/-- hash(str, max): djb2 from 5381, then hash % max with max converted to
unsigned long, the result converted to unsigned int. -/
def hash (str : CStr) (max : Int) : Except Fault Nat :=
  let h := hash_loop str.bytes 5381
  let m := (max % (ULONG_MOD : Int)).toNat
  if m = 0 then .error .div_by_zero
  else .ok (h % m % UINT_MOD)

/-- create_hash_table(capacity): calloc(capacity, sizeof(LinkedPair *)) gives capacity
NULL slots; for a negative capacity the calloc fails and storage has no slot. -/
def create_hash_table (capacity : Int) : HashTable :=
  { capacity := capacity, storage := List.replicate capacity.toNat [] }

/-- The while (stored_pair && !inserted) loop of hash_table_insert.
Arguments: the nodes from stored_pair on, the position of stored_pair in the chain,
and prev (a position, none while unassigned).
Result: the nodes from stored_pair on after the loop, the final prev, and inserted. -/
def insert_loop (key value : CStr) : Chain → Nat → Option Nat → Chain × Option Nat × Bool
  | [], _, prev => ([], prev, false)
  | stored_pair :: next, i, _ =>
    if stored_pair.key = key then
      ({ stored_pair with value := value } :: next, some i, true)
    else
      let r := insert_loop key value next (i + 1) (some i)
      (stored_pair :: r.1, r.2.1, r.2.2)

/-- hash_table_insert(ht, key, value). -/
def hash_table_insert (ht : HashTable) (key value : CStr) : Except Fault HashTable :=
  match hash key ht.capacity with
  | .error f => .error f
  | .ok index =>
    match ht.storage[index]? with
    | none => .error .out_of_bounds
    | some [] => .ok { ht with storage := ht.storage.set index [create_pair key value] }
    | some (p :: rest) =>
      match insert_loop key value (p :: rest) 0 none with
      | (chain, _, true) => .ok { ht with storage := ht.storage.set index chain }
      | (_, none, false) => .error .unset_pointer
      | (chain, some j, false) =>
        -- prev->next = pair
        .ok { ht with
              storage := ht.storage.set index (chain.take (j + 1) ++ [create_pair key value]) }

/-- The while (next) loop of hash_table_remove.
Arguments: whether current has been destroyed, and the nodes from next on.
Result: the nodes linked after the last surviving node at or before current.
A match right after a destroyed node writes prev->next into freed memory. -/
def remove_loop (key : CStr) : Bool → Chain → Except Fault Chain
  | _, [] => .ok []
  | current_freed, next :: rest =>
    if next.key = key then
      if current_freed then .error .use_after_free
      else remove_loop key true rest
    else
      match remove_loop key false rest with
      | .error f => .error f
      | .ok linked => .ok (next :: linked)

/-- hash_table_remove(ht, key), with what it prints to stderr. -/
def hash_table_remove (ht : HashTable) (key : CStr) : Except Fault (HashTable × List Diag) :=
  match hash key ht.capacity with
  | .error f => .error f
  | .ok index =>
    match ht.storage[index]? with
    | none => .error .out_of_bounds
    | some [] => .ok (ht, [Diag.unable_to_remove key])
    | some (current :: next) =>
      if current.key = key then
        .ok ({ ht with storage := ht.storage.set index next }, [])
      else
        match remove_loop key false next with
        | .error f => .error f
        | .ok linked => .ok ({ ht with storage := ht.storage.set index (current :: linked) }, [])

/-- The while (current) loop of hash_table_retrieve. -/
def retrieve_loop (key : CStr) : Chain → Option CStr
  | [] => none
  | current :: next => if current.key = key then some current.value else retrieve_loop key next

/-- hash_table_retrieve(ht, key): the returned pointer (none is NULL) and what it prints
to stderr. -/
def hash_table_retrieve (ht : HashTable) (key : CStr) :
    Except Fault (Option CStr × List Diag) :=
  match hash key ht.capacity with
  | .error f => .error f
  | .ok index =>
    match ht.storage[index]? with
    | none => .error .out_of_bounds
    | some chain =>
      match retrieve_loop key chain with
      | some value => .ok (some value, [])
      | none => .ok (none, [Diag.unable_to_retrieve key])

/-- The for loop of destroy_hash_table over the given indices: reads storage[i] and frees
its chain. -/
def destroy_loop (ht : HashTable) : List Nat → Except Fault Unit
  | [] => .ok ()
  | i :: is =>
    match ht.storage[i]? with
    | none => .error .out_of_bounds
    | some _ => destroy_loop ht is

/-- destroy_hash_table(ht): for (i = 0; i < ht->capacity; i++) free the chain. -/
def destroy_hash_table (ht : HashTable) : Except Fault Unit :=
  destroy_loop ht (List.range ht.capacity.toNat)

/-- The inner while (current) loop of hash_table_resize: insert each node of the chain
into new_ht. -/
def resize_chain : HashTable → Chain → Except Fault HashTable
  | new_ht, [] => .ok new_ht
  | new_ht, current :: next =>
    match hash_table_insert new_ht current.key current.value with
    | .error f => .error f
    | .ok new_ht => resize_chain new_ht next

/-- The for loop of hash_table_resize over the given bucket indices. -/
def resize_loop (ht : HashTable) : List Nat → HashTable → Except Fault HashTable
  | [], new_ht => .ok new_ht
  | i :: is, new_ht =>
    match ht.storage[i]? with
    | none => .error .out_of_bounds
    | some chain =>
      match resize_chain new_ht chain with
      | .error f => .error f
      | .ok new_ht => resize_loop ht is new_ht

/-- hash_table_resize(ht). -/
def hash_table_resize (ht : HashTable) : Except Fault HashTable :=
  match resize_loop ht (List.range ht.capacity.toNat)
      (create_hash_table (wrap_int (ht.capacity * 2))) with
  | .error f => .error f
  | .ok new_ht =>
    match destroy_hash_table ht with
    | .error f => .error f
    | .ok _ => .ok new_ht

/-! ## Vocabulary of the properties -/

/-- Apply hash_table_insert to each (key, value) of a sequence, in order. -/
def insert_all : HashTable → List (CStr × CStr) → Except Fault HashTable
  | ht, [] => .ok ht
  | ht, kv :: rest =>
    match hash_table_insert ht kv.1 kv.2 with
    | .error f => .error f
    | .ok ht => insert_all ht rest

/-- Value of the last insert of the sequence whose key is k, none when there is none. -/
def last_value (ops : List (CStr × CStr)) (k : CStr) : Option CStr :=
  (ops.reverse.find? (fun kv => decide (kv.1 = k))).map (fun kv => kv.2)

/-- The djb2 reference in the words of the specification: the accumulator starts at 5381,
each byte c of the key, taken as an unsigned 8-bit value, in order sets
acc = acc * 33 + c with wrapping arithmetic at the width of the accumulator, and the result
is acc mod max. -/
def djb2_reference (key : CStr) (max : Nat) : Nat :=
  (key.bytes.foldl (fun acc c => (acc * 33 + c % 256) % ULONG_MOD) 5381) % max

/-- Smallest int. -/
def INT_MIN : Int := -2147483648

/-- Total number of entries over all buckets. -/
def entry_count (ht : HashTable) : Nat := (ht.storage.map List.length).sum

/-- Some entry of the table has key k. -/
def has_key (ht : HashTable) (k : CStr) : Prop :=
  ∃ chain ∈ ht.storage, ∃ p ∈ chain, p.key = k

/-- The table has an entry with key k and value v. -/
def has_entry (ht : HashTable) (k v : CStr) : Prop :=
  ∃ chain ∈ ht.storage, ∃ p ∈ chain, p.key = k ∧ p.value = v

/-- Chain of bucket i: every entry hashes to i under the capacity and no two entries
share a key. -/
def chain_ok (capacity : Int) (i : Nat) (chain : Chain) : Prop :=
  (∀ p ∈ chain, hash p.key capacity = .ok i) ∧ (chain.map (fun p => p.key)).Nodup

/-- Well-formed table: capacity an int >= 1, storage of capacity slots, every entry in
bucket hash(key, capacity), keys pairwise distinct within each chain. -/
def well_formed (ht : HashTable) : Prop :=
  1 ≤ ht.capacity ∧ ht.capacity ≤ INT_MAX ∧ ht.storage.length = ht.capacity.toNat ∧
  ∀ i, (h : i < ht.storage.length) → chain_ok ht.capacity i ht.storage[i]

instance (capacity : Int) (i : Nat) (chain : Chain) : Decidable (chain_ok capacity i chain) := by
  unfold chain_ok; infer_instance

instance (ht : HashTable) : Decidable (well_formed ht) := by
  unfold well_formed; infer_instance

instance (ht : HashTable) (k : CStr) : Decidable (has_key ht k) := by
  unfold has_key; infer_instance

instance (ht : HashTable) (k v : CStr) : Decidable (has_entry ht k v) := by
  unfold has_entry; infer_instance

/-! ## The demonstration data of main -/

/-- The key "line_1". -/
def line_1 : CStr := ⟨[108, 105, 110, 101, 95, 49], by decide⟩

/-- The key "line_2". -/
def line_2 : CStr := ⟨[108, 105, 110, 101, 95, 50], by decide⟩

/-- The key "line_3". -/
def line_3 : CStr := ⟨[108, 105, 110, 101, 95, 51], by decide⟩

/-- A key "line_4" that main never inserts; it shares bucket 0 with "line_2" under
capacity 2. -/
def line_4 : CStr := ⟨[108, 105, 110, 101, 95, 52], by decide⟩

/-- The value "Tiny hash table\n". -/
def text_1 : CStr :=
  ⟨[84, 105, 110, 121, 32, 104, 97, 115, 104, 32, 116, 97, 98, 108, 101, 10], by decide⟩

/-- The value "Filled beyond capacity\n". -/
def text_2 : CStr :=
  ⟨[70, 105, 108, 108, 101, 100, 32, 98, 101, 121, 111, 110, 100, 32, 99, 97, 112, 97, 99,
    105, 116, 121, 10], by decide⟩

/-- The value "Linked list saves the day!\n". -/
def text_3 : CStr :=
  ⟨[76, 105, 110, 107, 101, 100, 32, 108, 105, 115, 116, 32, 115, 97, 118, 101, 115, 32, 116,
    104, 101, 32, 100, 97, 121, 33, 10], by decide⟩

/-- The table of main after its three inserts into create_hash_table(2). -/
def demo_table : HashTable :=
  { capacity := 2,
    storage := [[create_pair line_2 text_2],
                [create_pair line_1 text_1, create_pair line_3 text_3]] }

/-! ## Proof devices -/

/-- Bucket index of a key under a capacity in 1..INT_MAX: what hash returns there. -/
def hidx (k : CStr) (capacity : Int) : Nat := hash_loop k.bytes 5381 % capacity.toNat

/-- Effect of hash_table_insert on the chain of the key's bucket: the first entry with the
key gets the value, or a new entry is linked at the tail. -/
def chain_insert (k v : CStr) : Chain → Chain
  | [] => [create_pair k v]
  | p :: rest =>
    if p.key = k then { p with value := v } :: rest else p :: chain_insert k v rest

/-- Effect of hash_table_remove on a chain with distinct keys: the entry with the key
is unlinked. -/
def chain_remove (k : CStr) (c : Chain) : Chain := c.eraseP (fun p => decide (p.key = k))

/-- The chain of bucket i, empty when i is not a slot. -/
def bucket (ht : HashTable) (i : Nat) : Chain := (ht.storage[i]?).getD []

/-- The table is an int capacity >= 1 with that many slots. -/
def shaped (ht : HashTable) : Prop :=
  1 ≤ ht.capacity ∧ ht.capacity ≤ INT_MAX ∧ ht.storage.length = ht.capacity.toNat

instance (ht : HashTable) : Decidable (shaped ht) := by
  unfold shaped; infer_instance

/-- All (key, value) pairs in bucket order, then chain order. -/
def entries (ht : HashTable) : List (CStr × CStr) :=
  ht.storage.flatten.map (fun p => (p.key, p.value))

/-! ## Evaluation on the demonstration data -/

example : insert_all (create_hash_table 2)
    [(line_1, text_1), (line_2, text_2), (line_3, text_3)] = .ok demo_table := by decide

example : well_formed demo_table := by decide

example : hash_table_retrieve demo_table line_2 = .ok (some text_2, []) := by decide

example : hash_table_retrieve demo_table line_4 =
    .ok (none, [Diag.unable_to_retrieve line_4]) := by decide

example : (hash_table_resize demo_table).map (fun t => (t.capacity, entry_count t)) =
    .ok (4, 3) := by decide

example : hash_table_insert (create_hash_table 0) line_1 text_1 = .error .div_by_zero := by
  decide

/-! ## The hash function -/

theorem hash_eq (k : CStr) {max : Int} (h1 : 1 ≤ max) (h2 : max ≤ INT_MAX) :
    hash k max = .ok (hidx k max) := by
  have hm : (max % (ULONG_MOD : Int)).toNat = max.toNat := by
    rw [Int.emod_eq_of_lt (by omega) (by simp only [ULONG_MOD, INT_MAX] at *; omega)]
  have hpos : 0 < max.toNat := by omega
  have hlt : hash_loop k.bytes 5381 % max.toNat < UINT_MOD := by
    have := Nat.mod_lt (hash_loop k.bytes 5381) hpos
    simp only [UINT_MOD, INT_MAX] at *; omega
  simp only [hash, hm, hidx]
  rw [if_neg (by omega), Nat.mod_eq_of_lt hlt]

theorem hidx_lt (k : CStr) {max : Int} (h1 : 1 ≤ max) : hidx k max < max.toNat :=
  Nat.mod_lt _ (by omega)

/-! ## Chains -/

theorem insert_loop_no_match (k v : CStr) (c : Chain) (h : ∀ p ∈ c, p.key ≠ k)
    (i : Nat) (prev : Option Nat) :
    insert_loop k v c i prev = (c, (if c = [] then prev else some (i + c.length - 1)), false) := by
  induction c generalizing i prev with
  | nil => simp [insert_loop]
  | cons p rest ih =>
    have hp : p.key ≠ k := h p (List.mem_cons_self _ _)
    have hr : ∀ q ∈ rest, q.key ≠ k := fun q hq => h q (List.mem_cons_of_mem _ hq)
    simp only [insert_loop, if_neg hp, ih hr]
    cases rest with
    | nil => simp
    | cons q rest2 => simp; omega

theorem insert_loop_match (k v : CStr) (c : Chain) (h : ∃ p ∈ c, p.key = k)
    (i : Nat) (prev : Option Nat) :
    ∃ j, insert_loop k v c i prev = (chain_insert k v c, some j, true) := by
  induction c generalizing i prev with
  | nil => simp at h
  | cons p rest ih =>
    by_cases hp : p.key = k
    · exact ⟨i, by simp [insert_loop, chain_insert, hp]⟩
    · have hr : ∃ q ∈ rest, q.key = k := by
        obtain ⟨q, hq, hqk⟩ := h
        rcases List.mem_cons.1 hq with rfl | hq
        · exact absurd hqk hp
        · exact ⟨q, hq, hqk⟩
      obtain ⟨j, hj⟩ := ih hr (i + 1) (some i)
      exact ⟨j, by simp [insert_loop, chain_insert, hp, hj]⟩

theorem chain_insert_no_match (k v : CStr) (c : Chain) (h : ∀ p ∈ c, p.key ≠ k) :
    chain_insert k v c = c ++ [create_pair k v] := by
  induction c with
  | nil => rfl
  | cons p rest ih =>
    have hp : p.key ≠ k := h p (List.mem_cons_self _ _)
    simp [chain_insert, hp, ih (fun q hq => h q (List.mem_cons_of_mem _ hq))]

theorem chain_insert_keys (k v : CStr) (c : Chain) :
    (chain_insert k v c).map (fun p => p.key) =
      if k ∈ c.map (fun p => p.key) then c.map (fun p => p.key)
      else c.map (fun p => p.key) ++ [k] := by
  induction c with
  | nil => simp [chain_insert, create_pair]
  | cons p rest ih =>
    by_cases hp : p.key = k
    · simp [chain_insert, hp]
    · have hp2 : ¬ k = p.key := fun e => hp e.symm
      simp only [chain_insert, if_neg hp, List.map_cons, ih, List.mem_cons, hp2, false_or]
      split <;> simp

theorem chain_insert_length (k v : CStr) (c : Chain) :
    (chain_insert k v c).length =
      if k ∈ c.map (fun p => p.key) then c.length else c.length + 1 := by
  have h := congrArg List.length (chain_insert_keys k v c)
  rw [List.length_map] at h
  rw [h]
  split <;> simp

theorem chain_insert_mem (k v : CStr) (c : Chain) (q : LinkedPair)
    (h : q ∈ chain_insert k v c) : (q.key = k ∧ q.value = v) ∨ q ∈ c := by
  induction c with
  | nil =>
    simp only [chain_insert, List.mem_singleton] at h
    subst h
    exact Or.inl ⟨rfl, rfl⟩
  | cons p rest ih =>
    by_cases hp : p.key = k
    · simp only [chain_insert, if_pos hp, List.mem_cons] at h
      rcases h with rfl | h
      · exact Or.inl ⟨hp, rfl⟩
      · exact Or.inr (List.mem_cons_of_mem _ h)
    · simp only [chain_insert, if_neg hp, List.mem_cons] at h
      rcases h with rfl | h
      · exact Or.inr (List.mem_cons_self _ _)
      · rcases ih h with h | h
        · exact Or.inl h
        · exact Or.inr (List.mem_cons_of_mem _ h)

theorem retrieve_loop_chain_insert_self (k v : CStr) (c : Chain) :
    retrieve_loop k (chain_insert k v c) = some v := by
  induction c with
  | nil => simp [chain_insert, retrieve_loop, create_pair]
  | cons p rest ih =>
    by_cases hp : p.key = k
    · simp [chain_insert, retrieve_loop, hp]
    · simp [chain_insert, retrieve_loop, hp, ih]

theorem retrieve_loop_chain_insert_ne (k v k2 : CStr) (c : Chain) (h : k2 ≠ k) :
    retrieve_loop k2 (chain_insert k v c) = retrieve_loop k2 c := by
  have h2 : ¬ k = k2 := fun e => h e.symm
  induction c with
  | nil => simp [chain_insert, retrieve_loop, create_pair, h2]
  | cons p rest ih =>
    by_cases hp : p.key = k
    · have hp2 : ¬ p.key = k2 := by rw [hp]; exact h2
      simp [chain_insert, retrieve_loop, hp, hp2, h2]
    · simp [chain_insert, retrieve_loop, hp, ih]

theorem retrieve_loop_eq_none (k : CStr) (c : Chain) :
    retrieve_loop k c = none ↔ ∀ p ∈ c, p.key ≠ k := by
  induction c with
  | nil => simp [retrieve_loop]
  | cons p rest ih =>
    by_cases hp : p.key = k
    · simp [retrieve_loop, hp]
    · simp [retrieve_loop, hp, ih]

theorem retrieve_loop_mem (k v : CStr) (c : Chain) (h : retrieve_loop k c = some v) :
    ∃ p ∈ c, p.key = k ∧ p.value = v := by
  induction c with
  | nil => simp [retrieve_loop] at h
  | cons p rest ih =>
    by_cases hp : p.key = k
    · simp only [retrieve_loop, if_pos hp, Option.some.injEq] at h
      exact ⟨p, List.mem_cons_self _ _, hp, h⟩
    · simp only [retrieve_loop, if_neg hp] at h
      obtain ⟨q, hq, hqk⟩ := ih h
      exact ⟨q, List.mem_cons_of_mem _ hq, hqk⟩

theorem retrieve_loop_of_mem (k v : CStr) (c : Chain)
    (hnd : (c.map (fun p => p.key)).Nodup) (p : LinkedPair) (hp : p ∈ c)
    (hk : p.key = k) (hv : p.value = v) : retrieve_loop k c = some v := by
  induction c with
  | nil => simp at hp
  | cons q rest ih =>
    rw [List.map_cons, List.nodup_cons] at hnd
    rcases List.mem_cons.1 hp with rfl | hp
    · simp [retrieve_loop, hk, hv]
    · have hq : q.key ≠ k := by
        intro e
        apply hnd.1
        rw [e, ← hk]
        exact List.mem_map_of_mem _ hp
      simp only [retrieve_loop, if_neg hq]
      exact ih hnd.2 hp

theorem remove_loop_no_match (k : CStr) (c : Chain) (h : ∀ p ∈ c, p.key ≠ k) (b : Bool) :
    remove_loop k b c = .ok c := by
  induction c generalizing b with
  | nil => rfl
  | cons p rest ih =>
    have hp : p.key ≠ k := h p (List.mem_cons_self _ _)
    simp [remove_loop, hp, ih (fun q hq => h q (List.mem_cons_of_mem _ hq))]

theorem remove_loop_nodup (k : CStr) (c : Chain) (hnd : (c.map (fun p => p.key)).Nodup) :
    remove_loop k false c = .ok (chain_remove k c) := by
  induction c with
  | nil => rfl
  | cons p rest ih =>
    rw [List.map_cons, List.nodup_cons] at hnd
    by_cases hp : p.key = k
    · have hr : ∀ q ∈ rest, q.key ≠ k := by
        intro q hq e
        apply hnd.1
        rw [hp, ← e]
        exact List.mem_map_of_mem _ hq
      simp [remove_loop, chain_remove, hp, remove_loop_no_match k rest hr]
    · have := ih hnd.2
      simp only [chain_remove] at this
      simp [remove_loop, chain_remove, hp, this]

theorem chain_remove_no_match (k : CStr) (c : Chain) (h : ∀ p ∈ c, p.key ≠ k) :
    chain_remove k c = c := by
  induction c with
  | nil => rfl
  | cons p rest ih =>
    have hp : p.key ≠ k := h p (List.mem_cons_self _ _)
    have := ih (fun q hq => h q (List.mem_cons_of_mem _ hq))
    simp only [chain_remove] at this
    simp [chain_remove, hp, this]

theorem chain_remove_sublist (k : CStr) (c : Chain) : (chain_remove k c).Sublist c :=
  List.eraseP_sublist c

theorem chain_remove_length (k : CStr) (c : Chain) (h : ∃ p ∈ c, p.key = k) :
    (chain_remove k c).length + 1 = c.length := by
  induction c with
  | nil => simp at h
  | cons p rest ih =>
    by_cases hp : p.key = k
    · simp [chain_remove, hp]
    · have hr : ∃ q ∈ rest, q.key = k := by
        obtain ⟨q, hq, hqk⟩ := h
        rcases List.mem_cons.1 hq with rfl | hq
        · exact absurd hqk hp
        · exact ⟨q, hq, hqk⟩
      have := ih hr
      simp only [chain_remove] at this
      simp [chain_remove, hp, this]

theorem retrieve_loop_chain_remove_self (k : CStr) (c : Chain)
    (hnd : (c.map (fun p => p.key)).Nodup) : retrieve_loop k (chain_remove k c) = none := by
  induction c with
  | nil => rfl
  | cons p rest ih =>
    rw [List.map_cons, List.nodup_cons] at hnd
    by_cases hp : p.key = k
    · have hr : ∀ q ∈ rest, q.key ≠ k := by
        intro q hq e
        apply hnd.1
        rw [hp, ← e]
        exact List.mem_map_of_mem _ hq
      simpa [chain_remove, hp] using (retrieve_loop_eq_none k rest).2 hr
    · have := ih hnd.2
      simp only [chain_remove] at this
      simp [chain_remove, hp, retrieve_loop, this]

theorem retrieve_loop_chain_remove_ne (k k2 : CStr) (c : Chain) (h : k2 ≠ k) :
    retrieve_loop k2 (chain_remove k c) = retrieve_loop k2 c := by
  induction c with
  | nil => rfl
  | cons p rest ih =>
    simp only [chain_remove] at ih
    by_cases hp : p.key = k
    · have hk : ¬ k = k2 := fun e => h e.symm
      simp [chain_remove, List.eraseP_cons, hp, retrieve_loop, hk]
    · simp only [chain_remove, List.eraseP_cons, hp, decide_False, cond_false, retrieve_loop, ih]

/-! ## The operations on a table with capacity slots -/

theorem set_slot_self {l : List Chain} {i : Nat} {c : Chain} (h : l[i]? = some c) :
    l.set i c = l := by
  induction l generalizing i with
  | nil => rfl
  | cons x xs ih =>
    cases i with
    | zero => simp at h; simp [h]
    | succ n => simp at h; simp [ih h]

theorem shaped_slot {ht : HashTable} (hs : shaped ht) (k : CStr) :
    hidx k ht.capacity < ht.storage.length ∧
    ht.storage[hidx k ht.capacity]? = some (bucket ht (hidx k ht.capacity)) := by
  have hlt : hidx k ht.capacity < ht.storage.length := by
    rw [hs.2.2]; exact hidx_lt k hs.1
  exact ⟨hlt, by simp [bucket, List.getElem?_eq_getElem hlt]⟩

theorem bucket_set (ht : HashTable) (i j : Nat) (c : Chain) (hi : i < ht.storage.length) :
    bucket { ht with storage := ht.storage.set i c } j = if i = j then c else bucket ht j := by
  simp only [bucket, List.getElem?_set, hi, if_true]
  split <;> simp

theorem shaped_set {ht : HashTable} (hs : shaped ht) (i : Nat) (c : Chain) :
    shaped { ht with storage := ht.storage.set i c } := by
  refine ⟨hs.1, hs.2.1, ?_⟩
  simp only [List.length_set]
  exact hs.2.2

theorem insert_ok {ht : HashTable} (hs : shaped ht) (k v : CStr) :
    hash_table_insert ht k v = .ok { ht with
      storage := ht.storage.set (hidx k ht.capacity)
        (chain_insert k v (bucket ht (hidx k ht.capacity))) } := by
  obtain ⟨_, hslot⟩ := shaped_slot hs k
  simp only [hash_table_insert, hash_eq k hs.1 hs.2.1, hslot]
  generalize bucket ht (hidx k ht.capacity) = c
  cases c with
  | nil => rfl
  | cons p rest =>
    by_cases hm : ∃ q ∈ p :: rest, q.key = k
    · obtain ⟨j, hj⟩ := insert_loop_match k v (p :: rest) hm 0 none
      simp only [hj]
    · have hn : ∀ q ∈ p :: rest, q.key ≠ k := fun q hq e => hm ⟨q, hq, e⟩
      simp only [insert_loop_no_match k v (p :: rest) hn 0 none,
        chain_insert_no_match k v (p :: rest) hn]
      simp

theorem remove_ok_no_match {ht : HashTable} (hs : shaped ht) (k : CStr)
    (hn : ∀ p ∈ bucket ht (hidx k ht.capacity), p.key ≠ k) :
    hash_table_remove ht k =
      .ok (ht, if bucket ht (hidx k ht.capacity) = [] then [Diag.unable_to_remove k] else []) := by
  obtain ⟨_, hslot⟩ := shaped_slot hs k
  simp only [hash_table_remove, hash_eq k hs.1 hs.2.1, hslot]
  generalize bucket ht (hidx k ht.capacity) = c at hslot hn
  cases c with
  | nil => rfl
  | cons p rest =>
    have hp : p.key ≠ k := hn p (List.mem_cons_self _ _)
    have hr : ∀ q ∈ rest, q.key ≠ k := fun q hq => hn q (List.mem_cons_of_mem _ hq)
    simp only [if_neg hp, remove_loop_no_match k rest hr false, set_slot_self hslot]
    simp

theorem remove_ok {ht : HashTable} (hs : shaped ht) (k : CStr)
    (hnd : ((bucket ht (hidx k ht.capacity)).map (fun p => p.key)).Nodup) :
    hash_table_remove ht k =
      .ok ({ ht with
              storage := ht.storage.set (hidx k ht.capacity)
                (chain_remove k (bucket ht (hidx k ht.capacity))) },
           if bucket ht (hidx k ht.capacity) = [] then [Diag.unable_to_remove k] else []) := by
  obtain ⟨_, hslot⟩ := shaped_slot hs k
  simp only [hash_table_remove, hash_eq k hs.1 hs.2.1, hslot]
  generalize bucket ht (hidx k ht.capacity) = c at hslot hnd
  cases c with
  | nil => simp [chain_remove, set_slot_self hslot]
  | cons p rest =>
    rw [List.map_cons, List.nodup_cons] at hnd
    by_cases hp : p.key = k
    · simp [chain_remove, hp]
    · have := remove_loop_nodup k rest hnd.2
      simp only [chain_remove] at this
      simp [chain_remove, hp, this]

theorem retrieve_ok {ht : HashTable} (hs : shaped ht) (k : CStr) :
    hash_table_retrieve ht k =
      .ok (retrieve_loop k (bucket ht (hidx k ht.capacity)),
           if (retrieve_loop k (bucket ht (hidx k ht.capacity))).isSome then []
           else [Diag.unable_to_retrieve k]) := by
  obtain ⟨_, hslot⟩ := shaped_slot hs k
  simp only [hash_table_retrieve, hash_eq k hs.1 hs.2.1, hslot]
  cases retrieve_loop k (bucket ht (hidx k ht.capacity)) <;> rfl

theorem shaped_create {c : Int} (h1 : 1 ≤ c) (h2 : c ≤ INT_MAX) :
    shaped (create_hash_table c) :=
  ⟨h1, h2, by simp [create_hash_table]⟩

theorem bucket_create (c : Int) (i : Nat) : bucket (create_hash_table c) i = [] := by
  simp only [bucket, create_hash_table, List.getElem?_replicate]
  split <;> rfl

theorem retrieve_insert {ht : HashTable} (hs : shaped ht) (k v k2 : CStr) :
    retrieve_loop k2 (bucket { ht with
        storage := ht.storage.set (hidx k ht.capacity)
          (chain_insert k v (bucket ht (hidx k ht.capacity))) } (hidx k2 ht.capacity)) =
      if k2 = k then some v else retrieve_loop k2 (bucket ht (hidx k2 ht.capacity)) := by
  rw [bucket_set _ _ _ _ (shaped_slot hs k).1]
  by_cases hk : k2 = k
  · subst hk
    simp [retrieve_loop_chain_insert_self]
  · rw [if_neg hk]
    split
    · next h => rw [retrieve_loop_chain_insert_ne _ _ _ _ hk, h]
    · rfl

theorem last_value_cons (kv : CStr × CStr) (rest : List (CStr × CStr)) (k : CStr) :
    last_value (kv :: rest) k =
      (last_value rest k).or (if kv.1 = k then some kv.2 else none) := by
  simp only [last_value, List.reverse_cons, List.find?_append]
  cases List.find? (fun kv => decide (kv.1 = k)) rest.reverse with
  | some x => simp
  | none =>
    by_cases h : kv.1 = k
    · simp [h]
    · simp [h]

theorem insert_all_retrieve (ops : List (CStr × CStr)) {ht : HashTable} (hs : shaped ht) :
    ∃ t, insert_all ht ops = .ok t ∧ shaped t ∧ t.capacity = ht.capacity ∧
      ∀ k, retrieve_loop k (bucket t (hidx k t.capacity)) =
        (last_value ops k).or (retrieve_loop k (bucket ht (hidx k ht.capacity))) := by
  induction ops generalizing ht with
  | nil => exact ⟨ht, rfl, hs, rfl, fun k => by simp [last_value]⟩
  | cons kv rest ih =>
    obtain ⟨t, ht1, ht2, ht3, ht4⟩ := ih (shaped_set hs (hidx kv.1 ht.capacity)
      (chain_insert kv.1 kv.2 (bucket ht (hidx kv.1 ht.capacity))))
    refine ⟨t, ?_, ht2, ht3, fun k => ?_⟩
    · simp only [insert_all, insert_ok hs]
      exact ht1
    · rw [ht4 k, last_value_cons]
      have := retrieve_insert hs kv.1 kv.2 k
      simp only at this
      simp only [this]
      cases last_value rest k with
      | some x => simp
      | none =>
        by_cases h : kv.1 = k
        · simp [h]
        · have h2 : ¬ k = kv.1 := fun e => h e.symm
          simp [h, h2]

/-- C1: for every int capacity c >= 1 and every finite sequence of inserts applied to
create_hash_table(c), every insert succeeds and hash_table_retrieve of any key k returns the
value of the last insert of the sequence with key k, and NULL when the sequence has no
insert with key k. -/
theorem retrieve_after_inserts (c : Int) (h1 : 1 ≤ c) (h2 : c ≤ INT_MAX)
    (ops : List (CStr × CStr)) :
    ∃ t, insert_all (create_hash_table c) ops = .ok t ∧
      ∀ k, ∃ log, hash_table_retrieve t k = .ok (last_value ops k, log) := by
  obtain ⟨t, ht1, ht2, _, ht4⟩ := insert_all_retrieve ops (shaped_create h1 h2)
  refine ⟨t, ht1, fun k => ?_⟩
  have h := ht4 k
  rw [bucket_create] at h
  simp only [retrieve_loop, Option.or_none] at h
  exact ⟨_, by rw [retrieve_ok ht2 k, h]⟩

/-! ## Well-formed tables -/

theorem wf_shaped {ht : HashTable} (h : well_formed ht) : shaped ht :=
  ⟨h.1, h.2.1, h.2.2.1⟩

theorem bucket_eq_getElem (ht : HashTable) (i : Nat) (hi : i < ht.storage.length) :
    bucket ht i = ht.storage[i] := by
  simp [bucket, List.getElem?_eq_getElem hi]

theorem wf_bucket {ht : HashTable} (h : well_formed ht) (i : Nat)
    (hi : i < ht.storage.length) : chain_ok ht.capacity i (bucket ht i) := by
  rw [bucket_eq_getElem ht i hi]
  exact h.2.2.2 i hi

theorem wf_of_buckets {ht : HashTable} (hs : shaped ht)
    (h : ∀ i, i < ht.storage.length → chain_ok ht.capacity i (bucket ht i)) :
    well_formed ht := by
  refine ⟨hs.1, hs.2.1, hs.2.2, fun i hi => ?_⟩
  rw [← bucket_eq_getElem ht i hi]
  exact h i hi

theorem chain_ok_insert {cap : Int} {i : Nat} {c : Chain} (h : chain_ok cap i c)
    (k v : CStr) (hk : hash k cap = .ok i) : chain_ok cap i (chain_insert k v c) := by
  refine ⟨fun q hq => ?_, ?_⟩
  · rcases chain_insert_mem k v c q hq with hq | hq
    · rw [hq.1]; exact hk
    · exact h.1 q hq
  · rw [chain_insert_keys]
    split
    · exact h.2
    · next hn =>
      rw [List.nodup_append]
      refine ⟨h.2, List.nodup_singleton k, ?_⟩
      intro a ha hb
      rw [List.mem_singleton] at hb
      subst hb
      exact hn ha

theorem chain_ok_remove {cap : Int} {i : Nat} {c : Chain} (h : chain_ok cap i c)
    (k : CStr) : chain_ok cap i (chain_remove k c) :=
  ⟨fun q hq => h.1 q ((chain_remove_sublist k c).subset hq),
   List.Nodup.sublist ((chain_remove_sublist k c).map _) h.2⟩

theorem wf_set {ht : HashTable} (h : well_formed ht) (i : Nat) (c : Chain)
    (hc : chain_ok ht.capacity i c) :
    well_formed { ht with storage := ht.storage.set i c } := by
  refine wf_of_buckets (shaped_set (wf_shaped h) i c) (fun j hj => ?_)
  simp only [List.length_set] at hj
  by_cases hij : i = j
  · subst hij
    rw [bucket_set ht i i c hj, if_pos rfl]
    exact hc
  · have hb : bucket { ht with storage := ht.storage.set i c } j = bucket ht j := by
      simp only [bucket, List.getElem?_set_ne hij]
    rw [hb]
    exact wf_bucket h j hj

theorem wf_create {c : Int} (h1 : 1 ≤ c) (h2 : c ≤ INT_MAX) :
    well_formed (create_hash_table c) := by
  refine wf_of_buckets (shaped_create h1 h2) (fun i _ => ?_)
  rw [bucket_create]
  exact ⟨fun p hp => by simp at hp, by simp⟩

theorem wf_insert {ht : HashTable} (h : well_formed ht) (k v : CStr) :
    well_formed { ht with
      storage := ht.storage.set (hidx k ht.capacity)
        (chain_insert k v (bucket ht (hidx k ht.capacity))) } :=
  wf_set h _ _ (chain_ok_insert (wf_bucket h _ (shaped_slot (wf_shaped h) k).1) k v
    (hash_eq k h.1 h.2.1))

theorem wf_remove {ht : HashTable} (h : well_formed ht) (k : CStr) :
    well_formed { ht with
      storage := ht.storage.set (hidx k ht.capacity)
        (chain_remove k (bucket ht (hidx k ht.capacity))) } :=
  wf_set h _ _ (chain_ok_remove (wf_bucket h _ (shaped_slot (wf_shaped h) k).1) k)

theorem wf_insert_all (ops : List (CStr × CStr)) {ht : HashTable} (h : well_formed ht) :
    ∃ t, insert_all ht ops = .ok t ∧ well_formed t := by
  induction ops generalizing ht with
  | nil => exact ⟨ht, rfl, h⟩
  | cons kv rest ih =>
    obtain ⟨t, ht1, ht2⟩ := ih (wf_insert h kv.1 kv.2)
    exact ⟨t, by simp only [insert_all, insert_ok (wf_shaped h)]; exact ht1, ht2⟩

/-- In a well-formed table an entry with key k lies in the bucket of k. -/
theorem wf_mem_bucket {ht : HashTable} (h : well_formed ht) {chain : Chain}
    (hc : chain ∈ ht.storage) {p : LinkedPair} (hp : p ∈ chain) :
    p ∈ bucket ht (hidx p.key ht.capacity) := by
  obtain ⟨i, hi, rfl⟩ := List.mem_iff_getElem.1 hc
  have hok := (h.2.2.2 i hi).1 p hp
  rw [hash_eq p.key h.1 h.2.1] at hok
  injection hok with hok
  rw [hok, bucket_eq_getElem ht i hi]
  exact hp

theorem bucket_mem_storage {ht : HashTable} {i : Nat} {p : LinkedPair}
    (hp : p ∈ bucket ht i) : ∃ chain ∈ ht.storage, p ∈ chain := by
  by_cases hi : i < ht.storage.length
  · rw [bucket_eq_getElem ht i hi] at hp
    exact ⟨_, List.getElem_mem hi, hp⟩
  · simp [bucket, List.getElem?_eq_none (Nat.le_of_not_lt hi)] at hp

theorem wf_keys_nodup {ht : HashTable} (h : well_formed ht) :
    (ht.storage.flatten.map (fun p => p.key)).Nodup := by
  rw [List.map_flatten, List.nodup_flatten]
  refine ⟨fun l hl => ?_, ?_⟩
  · obtain ⟨chain, hc, rfl⟩ := List.mem_map.1 hl
    obtain ⟨i, hi, rfl⟩ := List.mem_iff_getElem.1 hc
    exact (h.2.2.2 i hi).2
  · rw [List.pairwise_iff_getElem]
    intro i j hi hj hij
    simp only [List.length_map] at hi hj
    simp only [List.getElem_map]
    intro a ha hb
    obtain ⟨p, hp, rfl⟩ := List.mem_map.1 ha
    obtain ⟨q, hq, hqk⟩ := List.mem_map.1 hb
    have h1 := (h.2.2.2 i hi).1 p hp
    have h2 := (h.2.2.2 j hj).1 q hq
    rw [hqk, h1] at h2
    injection h2 with h2
    omega

/-! ## Resize as a sequence of inserts -/

theorem resize_chain_eq (new_ht : HashTable) (c : Chain) :
    resize_chain new_ht c = insert_all new_ht (c.map (fun p => (p.key, p.value))) := by
  induction c generalizing new_ht with
  | nil => rfl
  | cons p rest ih =>
    simp only [resize_chain, List.map_cons, insert_all]
    cases hash_table_insert new_ht p.key p.value with
    | error f => rfl
    | ok t => exact ih t

theorem insert_all_append (t : HashTable) (a b : List (CStr × CStr)) :
    insert_all t (a ++ b) =
      match insert_all t a with
      | .error f => .error f
      | .ok t2 => insert_all t2 b := by
  induction a generalizing t with
  | nil => rfl
  | cons kv rest ih =>
    simp only [List.cons_append, insert_all]
    cases hash_table_insert t kv.1 kv.2 with
    | error f => rfl
    | ok t2 => exact ih t2

theorem resize_loop_eq (ht : HashTable) (st : List Chain) (s : Nat) (new_ht : HashTable)
    (h : ht.storage.drop s = st) :
    resize_loop ht (List.range' s st.length) new_ht =
      insert_all new_ht (st.flatten.map (fun p => (p.key, p.value))) := by
  induction st generalizing s new_ht with
  | nil => rfl
  | cons c rest ih =>
    have hs : ht.storage[s]? = some c := by
      have := List.getElem?_drop ht.storage s 0
      rw [h] at this
      simpa using this.symm
    have hd : ht.storage.drop (s + 1) = rest := by
      rw [← List.tail_drop, h]
      rfl
    simp only [List.length_cons, List.range'_succ, resize_loop, hs, List.flatten_cons,
      List.map_append, insert_all_append, resize_chain_eq]
    cases insert_all new_ht (c.map (fun p => (p.key, p.value))) with
    | error f => rfl
    | ok t => exact ih (s + 1) t hd

theorem destroy_loop_ok (ht : HashTable) (is : List Nat)
    (h : ∀ i ∈ is, i < ht.storage.length) : destroy_loop ht is = .ok () := by
  induction is with
  | nil => rfl
  | cons i rest ih =>
    have hi := h i (List.mem_cons_self _ _)
    simp only [destroy_loop, List.getElem?_eq_getElem hi]
    exact ih (fun j hj => h j (List.mem_cons_of_mem _ hj))

theorem destroy_ok {ht : HashTable} (h : ht.storage.length = ht.capacity.toNat) :
    destroy_hash_table ht = .ok () := by
  apply destroy_loop_ok
  intro i hi
  rw [List.mem_range] at hi
  omega

theorem resize_eq {ht : HashTable} (h : ht.storage.length = ht.capacity.toNat) :
    hash_table_resize ht =
      insert_all (create_hash_table (wrap_int (ht.capacity * 2))) (entries ht) := by
  have hl := resize_loop_eq ht ht.storage 0 (create_hash_table (wrap_int (ht.capacity * 2)))
    (List.drop_zero _)
  rw [← List.range_eq_range', h] at hl
  simp only [hash_table_resize, hl, destroy_ok h, entries]
  cases insert_all (create_hash_table (wrap_int (ht.capacity * 2)))
    (ht.storage.flatten.map (fun p => (p.key, p.value))) <;> rfl

theorem wrap_int_double {c : Int} (h1 : 1 ≤ c) (h2 : c * 2 ≤ INT_MAX) :
    wrap_int (c * 2) = c * 2 := by
  simp only [wrap_int, INT_MAX] at *
  omega

theorem entries_create (c : Int) : entries (create_hash_table c) = [] := by
  simp only [entries, create_hash_table]
  generalize c.toNat = n
  induction n with
  | zero => rfl
  | succ n ih => simp [List.replicate_succ]

theorem last_value_eq_none (ops : List (CStr × CStr)) (k : CStr) :
    last_value ops k = none ↔ ∀ kv ∈ ops, kv.1 ≠ k := by
  simp [last_value, List.find?_eq_none]

theorem last_value_mem (ops : List (CStr × CStr)) (k v : CStr)
    (h : last_value ops k = some v) : (k, v) ∈ ops := by
  simp only [last_value, Option.map_eq_some'] at h
  obtain ⟨kv, hkv, rfl⟩ := h
  have h1 := List.find?_some hkv
  have h2 := List.mem_of_find?_eq_some hkv
  simp only [decide_eq_true_eq] at h1
  rw [List.mem_reverse] at h2
  rw [← h1]
  exact h2

theorem mem_entries (ht : HashTable) (k v : CStr) :
    (k, v) ∈ entries ht ↔ has_entry ht k v := by
  simp only [entries, has_entry, List.mem_map, List.mem_flatten, Prod.mk.injEq]
  constructor
  · rintro ⟨p, ⟨chain, hc, hp⟩, hk, hv⟩
    exact ⟨chain, hc, p, hp, hk, hv⟩
  · rintro ⟨chain, hc, p, hp, hk, hv⟩
    exact ⟨p, ⟨chain, hc, hp⟩, hk, hv⟩

/-- In a well-formed table the chain walk for k finds v exactly when (k, v) is an entry. -/
theorem wf_retrieve_some {ht : HashTable} (h : well_formed ht) (k v : CStr) :
    retrieve_loop k (bucket ht (hidx k ht.capacity)) = some v ↔ has_entry ht k v := by
  constructor
  · intro hr
    obtain ⟨p, hp, hk, hv⟩ := retrieve_loop_mem k v _ hr
    obtain ⟨chain, hc, hpc⟩ := bucket_mem_storage hp
    exact ⟨chain, hc, p, hpc, hk, hv⟩
  · rintro ⟨chain, hc, p, hp, hk, hv⟩
    have hb := wf_mem_bucket h hc hp
    rw [hk] at hb
    exact retrieve_loop_of_mem k v _
      (wf_bucket h _ (shaped_slot (wf_shaped h) k).1).2 p hb hk hv

/-- The chain walk for k finds nothing exactly when no entry has key k. -/
theorem wf_retrieve_none {ht : HashTable} (h : well_formed ht) (k : CStr) :
    retrieve_loop k (bucket ht (hidx k ht.capacity)) = none ↔ ¬ has_key ht k := by
  rw [retrieve_loop_eq_none]
  constructor
  · rintro hn ⟨chain, hc, p, hp, hk⟩
    have hb := wf_mem_bucket h hc hp
    rw [hk] at hb
    exact hn p hb hk
  · intro hn p hp hk
    obtain ⟨chain, hc, hpc⟩ := bucket_mem_storage hp
    exact hn ⟨chain, hc, p, hpc, hk⟩

theorem wf_last_value_entries {ht : HashTable} (h : well_formed ht) (k : CStr) :
    last_value (entries ht) k = retrieve_loop k (bucket ht (hidx k ht.capacity)) := by
  cases hl : last_value (entries ht) k with
  | none =>
    symm
    rw [retrieve_loop_eq_none]
    intro p hp hk
    obtain ⟨chain, hc, hpc⟩ := bucket_mem_storage hp
    have := (last_value_eq_none _ _).1 hl (k, p.value)
      ((mem_entries ht k p.value).2 ⟨chain, hc, p, hpc, hk, rfl⟩)
    exact this rfl
  | some v =>
    symm
    exact (wf_retrieve_some h k v).2 ((mem_entries ht k v).1 (last_value_mem _ _ _ hl))

/-- C2: for every well-formed table whose doubled capacity is an int, hash_table_resize
returns a table on which hash_table_retrieve of every key gives the same result as on the
original: present pairs keep their values, absent keys stay not found. -/
theorem retrieve_after_resize (ht : HashTable) (hwf : well_formed ht)
    (hrep : ht.capacity * 2 ≤ INT_MAX) :
    ∃ t, hash_table_resize ht = .ok t ∧
      ∀ k, hash_table_retrieve t k = hash_table_retrieve ht k := by
  have hnew : shaped (create_hash_table (wrap_int (ht.capacity * 2))) := by
    rw [wrap_int_double hwf.1 hrep]
    exact shaped_create (by have := hwf.1; omega) hrep
  obtain ⟨t, ht1, ht2, _, ht4⟩ := insert_all_retrieve (entries ht) hnew
  refine ⟨t, by rw [resize_eq hwf.2.2.1]; exact ht1, fun k => ?_⟩
  have h := ht4 k
  rw [bucket_create] at h
  simp only [retrieve_loop, Option.or_none] at h
  rw [retrieve_ok ht2 k, retrieve_ok (wf_shaped hwf) k, h, wf_last_value_entries hwf k]

/-! ## Removal -/

theorem retrieve_remove {ht : HashTable} (hs : shaped ht) (k k2 : CStr)
    (hnd : ((bucket ht (hidx k ht.capacity)).map (fun p => p.key)).Nodup) :
    retrieve_loop k2 (bucket { ht with
        storage := ht.storage.set (hidx k ht.capacity)
          (chain_remove k (bucket ht (hidx k ht.capacity))) } (hidx k2 ht.capacity)) =
      if k2 = k then none else retrieve_loop k2 (bucket ht (hidx k2 ht.capacity)) := by
  rw [bucket_set _ _ _ _ (shaped_slot hs k).1]
  by_cases hk : k2 = k
  · subst hk
    simp [retrieve_loop_chain_remove_self _ _ hnd]
  · rw [if_neg hk]
    split
    · next h => rw [retrieve_loop_chain_remove_ne _ _ _ hk, h]
    · rfl

theorem wf_has_key_bucket {ht : HashTable} (h : well_formed ht) {k : CStr}
    (hk : has_key ht k) : ∃ p ∈ bucket ht (hidx k ht.capacity), p.key = k := by
  obtain ⟨chain, hc, p, hp, hpk⟩ := hk
  have hb := wf_mem_bucket h hc hp
  rw [hpk] at hb
  exact ⟨p, hb, hpk⟩

theorem entry_count_set (ht : HashTable) (i : Nat) (c : Chain) (hi : i < ht.storage.length) :
    entry_count { ht with storage := ht.storage.set i c } + (bucket ht i).length =
      entry_count ht + c.length := by
  rw [bucket_eq_getElem ht i hi]
  simp only [entry_count]
  generalize ht.storage = l at hi
  induction l generalizing i with
  | nil => simp at hi
  | cons x xs ih =>
    cases i with
    | zero => simp; omega
    | succ n =>
      have := ih n (by simpa using hi)
      simp only [List.set_cons_succ, List.map_cons, List.sum_cons, List.getElem_cons_succ]
      omega

/-- C3: hash_table_remove of a key k on a well-formed table succeeds (in particular when
the table contains k); afterwards hash_table_retrieve of k returns NULL and
hash_table_retrieve of every other key returns what it returned before, whatever the
position of those entries in the chain. -/
theorem retrieve_after_remove (ht : HashTable) (hwf : well_formed ht) (k : CStr) :
    ∃ t log, hash_table_remove ht k = .ok (t, log) ∧
      (∃ log2, hash_table_retrieve t k = .ok (none, log2)) ∧
      ∀ k2, k2 ≠ k → hash_table_retrieve t k2 = hash_table_retrieve ht k2 := by
  have hs := wf_shaped hwf
  have hnd := (wf_bucket hwf _ (shaped_slot hs k).1).2
  have hs2 := shaped_set hs (hidx k ht.capacity) (chain_remove k (bucket ht (hidx k ht.capacity)))
  refine ⟨_, _, remove_ok hs k hnd, ⟨[Diag.unable_to_retrieve k], ?_⟩, fun k2 hk2 => ?_⟩
  · rw [retrieve_ok hs2 k]
    have := retrieve_remove hs k k hnd
    simp only [if_true] at this
    simp only [this]
    rfl
  · rw [retrieve_ok hs2 k2, retrieve_ok hs k2]
    have := retrieve_remove hs k k2 hnd
    simp only [if_neg hk2] at this
    simp only [this]

/-- C8: removing a key that a well-formed table contains lowers the total number of
entries over all buckets by exactly one. -/
theorem remove_decrements_entry_count (ht : HashTable) (hwf : well_formed ht) (k : CStr)
    (hk : has_key ht k) :
    ∃ t log, hash_table_remove ht k = .ok (t, log) ∧ entry_count t + 1 = entry_count ht := by
  have hs := wf_shaped hwf
  have hnd := (wf_bucket hwf _ (shaped_slot hs k).1).2
  refine ⟨_, _, remove_ok hs k hnd, ?_⟩
  have h1 := entry_count_set ht (hidx k ht.capacity)
    (chain_remove k (bucket ht (hidx k ht.capacity))) (shaped_slot hs k).1
  have h2 := chain_remove_length k _ (wf_has_key_bucket hwf hk)
  omega

/-- C7: on a table with capacity slots (capacity an int >= 1), removing a key that no
entry of its bucket has returns the table itself: same capacity, same chains. -/
theorem remove_absent_unchanged (ht : HashTable) (hs : shaped ht) (k : CStr)
    (hno : ∀ i, hash k ht.capacity = .ok i → ∀ p ∈ bucket ht i, p.key ≠ k) :
    ∃ log, hash_table_remove ht k = .ok (ht, log) :=
  ⟨_, remove_ok_no_match hs k (hno _ (hash_eq k hs.1 hs.2.1))⟩

/-! ## Insertion of a present key, entry counts, lookup -/

theorem storage_lengths_set (l : List Chain) (i : Nat) (c c2 : Chain) (h : l[i]? = some c)
    (hlen : c2.length = c.length) :
    (l.set i c2).map List.length = l.map List.length := by
  induction l generalizing i with
  | nil => rfl
  | cons x xs ih =>
    cases i with
    | zero =>
      simp only [List.getElem?_cons_zero, Option.some.injEq] at h
      subst h
      simp [hlen]
    | succ n =>
      simp only [List.getElem?_cons_succ] at h
      simp [ih n h]

/-- C5: inserting (k, v) into a well-formed table that already contains k succeeds and
leaves, in the chain of bucket hash(k, capacity), exactly one entry with key k, holding v;
every chain of the table has the length it had before. -/
theorem insert_existing_key (ht : HashTable) (hwf : well_formed ht) (k v : CStr)
    (hk : has_key ht k) :
    ∃ t i chain, hash_table_insert ht k v = .ok t ∧ hash k ht.capacity = .ok i ∧
      t.storage[i]? = some chain ∧
      chain.countP (fun p => decide (p.key = k)) = 1 ∧
      (∀ p ∈ chain, p.key = k → p.value = v) ∧
      t.storage.map List.length = ht.storage.map List.length := by
  have hs := wf_shaped hwf
  obtain ⟨hlt, hslot⟩ := shaped_slot hs k
  obtain ⟨q, hq, hqk⟩ := wf_has_key_bucket hwf hk
  have hmem : k ∈ (bucket ht (hidx k ht.capacity)).map (fun p => p.key) :=
    List.mem_map.2 ⟨q, hq, hqk⟩
  have hwf2 := wf_insert hwf k v
  have hs2 := wf_shaped hwf2
  have hb : bucket { ht with
      storage := ht.storage.set (hidx k ht.capacity)
        (chain_insert k v (bucket ht (hidx k ht.capacity))) } (hidx k ht.capacity) =
      chain_insert k v (bucket ht (hidx k ht.capacity)) := by
    rw [bucket_set _ _ _ _ hlt, if_pos rfl]
  have hok := wf_bucket hwf2 (hidx k ht.capacity) (by simpa using hlt)
  rw [hb] at hok
  have hkeys := chain_insert_keys k v (bucket ht (hidx k ht.capacity))
  rw [if_pos hmem] at hkeys
  refine ⟨_, hidx k ht.capacity, chain_insert k v (bucket ht (hidx k ht.capacity)),
    insert_ok hs k v, hash_eq k hs.1 hs.2.1, ?_, ?_, ?_, ?_⟩
  · simp [List.getElem?_set, hlt]
  · have h1 : k ∈ (chain_insert k v (bucket ht (hidx k ht.capacity))).map (fun p => p.key) := by
      rw [hkeys]; exact hmem
    have h2 := List.count_eq_one_of_mem hok.2 h1
    rw [List.count, List.countP_map] at h2
    rw [← h2]
    apply List.countP_congr
    intro p _
    simp
  · intro p hp hpk
    have hr := retrieve_loop_chain_insert_self k v (bucket ht (hidx k ht.capacity))
    have hr2 := retrieve_loop_of_mem k p.value _ hok.2 p hp hpk rfl
    rw [hr] at hr2
    injection hr2 with hr2
    exact hr2.symm
  · apply storage_lengths_set _ _ _ _ hslot
    rw [chain_insert_length, if_pos hmem]

theorem entry_count_eq_length (ht : HashTable) : entry_count ht = (entries ht).length := by
  rw [entries, List.length_map, List.length_flatten]
  rfl

theorem entry_count_create (c : Int) : entry_count (create_hash_table c) = 0 := by
  rw [entry_count_eq_length, entries_create]
  rfl

theorem insert_all_count (ops : List (CStr × CStr)) {ht : HashTable} (hs : shaped ht)
    (hnd : (ops.map (fun kv => kv.1)).Nodup)
    (hnew : ∀ kv ∈ ops, retrieve_loop kv.1 (bucket ht (hidx kv.1 ht.capacity)) = none) :
    ∃ t, insert_all ht ops = .ok t ∧ t.capacity = ht.capacity ∧
      t.storage.length = ht.storage.length ∧
      entry_count t = entry_count ht + ops.length := by
  induction ops generalizing ht with
  | nil => exact ⟨ht, rfl, rfl, rfl, rfl⟩
  | cons kv rest ih =>
    rw [List.map_cons, List.nodup_cons] at hnd
    have hlt := (shaped_slot hs kv.1).1
    have hkv := (retrieve_loop_eq_none _ _).1 (hnew kv (List.mem_cons_self _ _))
    have hstep : ∀ kv2 ∈ rest,
        retrieve_loop kv2.1 (bucket { ht with
          storage := ht.storage.set (hidx kv.1 ht.capacity)
            (chain_insert kv.1 kv.2 (bucket ht (hidx kv.1 ht.capacity))) }
          (hidx kv2.1 ht.capacity)) = none := by
      intro kv2 h2
      have hne : kv2.1 ≠ kv.1 := by
        intro e
        apply hnd.1
        rw [← e]
        exact List.mem_map_of_mem _ h2
      rw [retrieve_insert hs kv.1 kv.2 kv2.1, if_neg hne]
      exact hnew kv2 (List.mem_cons_of_mem _ h2)
    obtain ⟨t, ht1, ht2, ht3, ht4⟩ := ih (shaped_set hs (hidx kv.1 ht.capacity)
      (chain_insert kv.1 kv.2 (bucket ht (hidx kv.1 ht.capacity)))) hnd.2 hstep
    refine ⟨t, ?_, ht2, ?_, ?_⟩
    · simp only [insert_all, insert_ok hs]
      exact ht1
    · rw [ht3]; simp
    · have hc := entry_count_set ht (hidx kv.1 ht.capacity)
        (chain_insert kv.1 kv.2 (bucket ht (hidx kv.1 ht.capacity))) hlt
      have hlen : (chain_insert kv.1 kv.2 (bucket ht (hidx kv.1 ht.capacity))).length =
          (bucket ht (hidx kv.1 ht.capacity)).length + 1 := by
        rw [chain_insert_no_match _ _ _ hkv]
        simp
      rw [hlen] at hc
      rw [ht4, List.length_cons]
      omega

/-- C9: for every well-formed table whose doubled capacity is an int, hash_table_resize
returns a table of capacity exactly 2 * capacity, with that many slots, whose total number
of entries over all buckets equals that of the original. -/
theorem resize_doubles_and_keeps_count (ht : HashTable) (hwf : well_formed ht)
    (hrep : ht.capacity * 2 ≤ INT_MAX) :
    ∃ t, hash_table_resize ht = .ok t ∧ t.capacity = 2 * ht.capacity ∧
      t.storage.length = 2 * ht.storage.length ∧ entry_count t = entry_count ht := by
  have hw := wrap_int_double hwf.1 hrep
  have hnew : shaped (create_hash_table (wrap_int (ht.capacity * 2))) := by
    rw [hw]
    exact shaped_create (by have := hwf.1; omega) hrep
  have hnd : ((entries ht).map (fun kv => kv.1)).Nodup := by
    have := wf_keys_nodup hwf
    simpa [entries, List.map_map, Function.comp_def] using this
  obtain ⟨t, ht1, ht2, ht3, ht4⟩ := insert_all_count (entries ht) hnew hnd
    (fun kv _ => by rw [bucket_create]; rfl)
  refine ⟨t, by rw [resize_eq hwf.2.2.1]; exact ht1, ?_, ?_, ?_⟩
  · rw [ht2]
    simp only [create_hash_table, hw]
    ring
  · rw [ht3, hwf.2.2.1]
    simp only [create_hash_table, hw, List.length_replicate]
    have := hwf.1
    omega
  · rw [ht4, entry_count_create, entry_count_eq_length]
    omega

/-- C10: on a well-formed table hash_table_retrieve returns; it returns NULL exactly when
no entry has key k, and a value v exactly when (k, v) is an entry, which is then the only
entry with key k; after inserting (k, "") the result for k is the empty string, a non-NULL
result. -/
theorem retrieve_found_iff (ht : HashTable) (hwf : well_formed ht) (k : CStr) :
    ∃ r log, hash_table_retrieve ht k = .ok (r, log) ∧
      (r = none ↔ ¬ has_key ht k) ∧
      (∀ v, r = some v ↔ has_entry ht k v) ∧
      (has_key ht k → ht.storage.flatten.countP (fun p => decide (p.key = k)) = 1) ∧
      ∃ t log2, hash_table_insert ht k CStr.empty = .ok t ∧
        hash_table_retrieve t k = .ok (some CStr.empty, log2) ∧
        some CStr.empty ≠ (none : Option CStr) := by
  have hs := wf_shaped hwf
  refine ⟨_, _, retrieve_ok hs k, wf_retrieve_none hwf k, wf_retrieve_some hwf k, ?_, ?_⟩
  · rintro ⟨chain, hc, p, hp, hpk⟩
    have h1 : k ∈ ht.storage.flatten.map (fun p => p.key) :=
      List.mem_map.2 ⟨p, List.mem_flatten.2 ⟨chain, hc, hp⟩, hpk⟩
    have h2 := List.count_eq_one_of_mem (wf_keys_nodup hwf) h1
    rw [List.count, List.countP_map] at h2
    rw [← h2]
    apply List.countP_congr
    intro p _
    simp
  · have hs2 := shaped_set hs (hidx k ht.capacity)
      (chain_insert k CStr.empty (bucket ht (hidx k ht.capacity)))
    refine ⟨_, [], insert_ok hs k CStr.empty, ?_, by simp⟩
    rw [retrieve_ok hs2 k]
    have := retrieve_insert hs k CStr.empty k
    simp only [if_true] at this
    simp only [this]
    rfl

theorem resize_create (c : Int) :
    hash_table_resize (create_hash_table c) = .ok (create_hash_table (wrap_int (c * 2))) := by
  rw [resize_eq (by simp [create_hash_table]), entries_create]
  rfl

theorem flatten_set_replicate (n i : Nat) (c : Chain) (h : i < n) :
    ((List.replicate n ([] : Chain)).set i c).flatten = c := by
  induction n generalizing i with
  | zero => omega
  | succ n ih =>
    cases i with
    | zero =>
      have : (List.replicate n ([] : Chain)).flatten = [] := by simp
      simp [List.replicate_succ, this]
    | succ j => simp [List.replicate_succ, ih j (by omega)]

/-- The table after one insert into a fresh table, and what resize does with it. -/
theorem resize_after_first_insert (c : Int) (h1 : 1 ≤ c) (h2 : c ≤ INT_MAX) (k v : CStr) :
    ∃ t1, hash_table_insert (create_hash_table c) k v = .ok t1 ∧ well_formed t1 ∧
      hash_table_resize t1 =
        insert_all (create_hash_table (wrap_int (c * 2))) [(k, v)] := by
  have hs := shaped_create h1 h2
  have hw := wf_insert (wf_create h1 h2) k v
  refine ⟨_, insert_ok hs k v, hw, ?_⟩
  rw [resize_eq hw.2.2.1]
  have hlt : hidx k c < c.toNat := hidx_lt k h1
  have he : entries { create_hash_table c with
      storage := (create_hash_table c).storage.set (hidx k (create_hash_table c).capacity)
        (chain_insert k v (bucket (create_hash_table c)
          (hidx k (create_hash_table c).capacity))) } = [(k, v)] := by
    rw [bucket_create]
    simp only [entries, create_hash_table]
    rw [flatten_set_replicate _ _ _ hlt]
    rfl
  rw [he]
  rfl

/-! ## The invariant -/

/-- C4 (amended): well-formedness is an invariant. create_hash_table(c) for an int c >= 1
is well formed; in a well-formed table no key occurs twice; hash_table_insert and
hash_table_remove succeed on a well-formed table and return a well-formed table; so does
hash_table_resize when the doubled capacity is an int. -/
theorem well_formed_invariant :
    (∀ c : Int, 1 ≤ c → c ≤ INT_MAX → well_formed (create_hash_table c)) ∧
    (∀ ht, well_formed ht → (ht.storage.flatten.map (fun p => p.key)).Nodup) ∧
    (∀ ht k v, well_formed ht → ∃ t, hash_table_insert ht k v = .ok t ∧ well_formed t) ∧
    (∀ ht k, well_formed ht →
      ∃ t log, hash_table_remove ht k = .ok (t, log) ∧ well_formed t) ∧
    (∀ ht, well_formed ht → ht.capacity * 2 ≤ INT_MAX →
      ∃ t, hash_table_resize ht = .ok t ∧ well_formed t) := by
  refine ⟨fun c h1 h2 => wf_create h1 h2, fun ht h => wf_keys_nodup h, ?_, ?_, ?_⟩
  · intro ht k v h
    exact ⟨_, insert_ok (wf_shaped h) k v, wf_insert h k v⟩
  · intro ht k h
    have hs := wf_shaped h
    exact ⟨_, _, remove_ok hs k (wf_bucket h _ (shaped_slot hs k).1).2, wf_remove h k⟩
  · intro ht h hrep
    rw [resize_eq h.2.2.1, wrap_int_double h.1 hrep]
    exact wf_insert_all (entries ht) (wf_create (by have := h.1; omega) hrep)

/-- C4 as stated fails for resize. The empty table of capacity 2^30 is well formed, and
hash_table_resize returns for it a table of capacity -2^31 without any slot, which is not
well formed. After one insert of ("line_1", "Tiny hash table\n") that table is still well
formed, and hash_table_resize indexes the absent storage of its new table: no table comes
back. -/
theorem resize_breaks_well_formed_at_overflow :
    (well_formed (create_hash_table 1073741824) ∧
     hash_table_resize (create_hash_table 1073741824) =
       .ok { capacity := -2147483648, storage := [] } ∧
     ¬ ∃ t, hash_table_resize (create_hash_table 1073741824) = .ok t ∧ well_formed t) ∧
    (∃ t1, hash_table_insert (create_hash_table 1073741824) line_1 text_1 = .ok t1 ∧
      well_formed t1 ∧ hash_table_resize t1 = .error .out_of_bounds) := by
  have hw : wrap_int (1073741824 * 2) = -2147483648 := by decide
  have hc : create_hash_table (-2147483648) = { capacity := -2147483648, storage := [] } := rfl
  have hr : hash_table_resize (create_hash_table 1073741824) =
      .ok { capacity := -2147483648, storage := [] } := by
    rw [resize_create, hw]
    rfl
  refine ⟨⟨wf_create (by decide) (by decide), hr, ?_⟩, ?_⟩
  · rintro ⟨t, ht, hwf⟩
    rw [hr] at ht
    injection ht with ht
    subst ht
    exact absurd hwf.1 (by decide)
  · obtain ⟨t1, h1, h2, h3⟩ :=
      resize_after_first_insert 1073741824 (by decide) (by decide) line_1 text_1
    refine ⟨t1, h1, h2, ?_⟩
    rw [h3, hw, hc]
    decide

/-! ## What hash_table_remove reports -/

/-- C6 (evaluation): on the table of main, removing the absent key "line_4", whose bucket
holds the chain of "line_2", prints nothing and changes nothing, whereas removing it from
the empty table of capacity 2 prints the diagnostic; removing the present key "line_2"
prints nothing. -/
theorem remove_reports_only_empty_bucket :
    hash_table_remove demo_table line_4 = .ok (demo_table, []) ∧
    hash_table_remove (create_hash_table 2) line_4 =
      .ok (create_hash_table 2, [Diag.unable_to_remove line_4]) ∧
    hash_table_remove demo_table line_2 =
      .ok ({ capacity := 2,
             storage := [[], [create_pair line_1 text_1, create_pair line_3 text_3]] }, []) := by
  decide

/-! ## The theorems at the data of main -/

theorem retrieve_after_inserts_witness :
    (1 : Int) ≤ 2 ∧ (2 : Int) ≤ INT_MAX ∧
    ∃ t, insert_all (create_hash_table 2)
        [(line_1, text_1), (line_2, text_2), (line_3, text_3)] = .ok t ∧
      ∀ k, ∃ log, hash_table_retrieve t k =
        .ok (last_value [(line_1, text_1), (line_2, text_2), (line_3, text_3)] k, log) :=
  ⟨by decide, by decide, retrieve_after_inserts 2 (by decide) (by decide) _⟩

theorem retrieve_after_resize_witness :
    well_formed demo_table ∧ demo_table.capacity * 2 ≤ INT_MAX ∧
    ∃ t, hash_table_resize demo_table = .ok t ∧
      ∀ k, hash_table_retrieve t k = hash_table_retrieve demo_table k :=
  ⟨by decide, by decide, retrieve_after_resize demo_table (by decide) (by decide)⟩

theorem retrieve_after_remove_witness :
    well_formed demo_table ∧
    ∃ t log, hash_table_remove demo_table line_1 = .ok (t, log) ∧
      (∃ log2, hash_table_retrieve t line_1 = .ok (none, log2)) ∧
      ∀ k2, k2 ≠ line_1 → hash_table_retrieve t k2 = hash_table_retrieve demo_table k2 :=
  ⟨by decide, retrieve_after_remove demo_table (by decide) line_1⟩

theorem well_formed_invariant_witness :
    well_formed (create_hash_table 2) ∧
    (demo_table.storage.flatten.map (fun p => p.key)).Nodup ∧
    (∃ t, hash_table_insert demo_table line_4 text_1 = .ok t ∧ well_formed t) ∧
    (∃ t log, hash_table_remove demo_table line_1 = .ok (t, log) ∧ well_formed t) ∧
    (∃ t, hash_table_resize demo_table = .ok t ∧ well_formed t) :=
  ⟨well_formed_invariant.1 2 (by decide) (by decide),
   well_formed_invariant.2.1 demo_table (by decide),
   well_formed_invariant.2.2.1 demo_table line_4 text_1 (by decide),
   well_formed_invariant.2.2.2.1 demo_table line_1 (by decide),
   well_formed_invariant.2.2.2.2 demo_table (by decide) (by decide)⟩

theorem insert_existing_key_witness :
    well_formed demo_table ∧ has_key demo_table line_1 ∧
    ∃ t i chain, hash_table_insert demo_table line_1 text_2 = .ok t ∧
      hash line_1 demo_table.capacity = .ok i ∧
      t.storage[i]? = some chain ∧
      chain.countP (fun p => decide (p.key = line_1)) = 1 ∧
      (∀ p ∈ chain, p.key = line_1 → p.value = text_2) ∧
      t.storage.map List.length = demo_table.storage.map List.length :=
  ⟨by decide, by decide, insert_existing_key demo_table (by decide) line_1 text_2 (by decide)⟩

theorem remove_absent_unchanged_witness :
    shaped demo_table ∧ ∃ log, hash_table_remove demo_table line_4 = .ok (demo_table, log) :=
  ⟨by decide, remove_absent_unchanged demo_table (by decide) line_4 (fun i hi => by
    have h0 : hash line_4 demo_table.capacity = .ok 0 := by decide
    rw [h0] at hi
    injection hi with hi
    subst hi
    decide)⟩

theorem remove_decrements_entry_count_witness :
    well_formed demo_table ∧ has_key demo_table line_3 ∧
    ∃ t log, hash_table_remove demo_table line_3 = .ok (t, log) ∧
      entry_count t + 1 = entry_count demo_table :=
  ⟨by decide, by decide,
   remove_decrements_entry_count demo_table (by decide) line_3 (by decide)⟩

theorem resize_doubles_and_keeps_count_witness :
    well_formed demo_table ∧ demo_table.capacity * 2 ≤ INT_MAX ∧
    ∃ t, hash_table_resize demo_table = .ok t ∧ t.capacity = 2 * demo_table.capacity ∧
      t.storage.length = 2 * demo_table.storage.length ∧
      entry_count t = entry_count demo_table :=
  ⟨by decide, by decide, resize_doubles_and_keeps_count demo_table (by decide) (by decide)⟩

theorem retrieve_found_iff_witness :
    well_formed demo_table ∧
    ∃ r log, hash_table_retrieve demo_table line_2 = .ok (r, log) ∧
      (r = none ↔ ¬ has_key demo_table line_2) ∧
      (∀ v, r = some v ↔ has_entry demo_table line_2 v) ∧
      (has_key demo_table line_2 →
        demo_table.storage.flatten.countP (fun p => decide (p.key = line_2)) = 1) ∧
      ∃ t log2, hash_table_insert demo_table line_2 CStr.empty = .ok t ∧
        hash_table_retrieve t line_2 = .ok (some CStr.empty, log2) ∧
        some CStr.empty ≠ (none : Option CStr) :=
  ⟨by decide, retrieve_found_iff demo_table (by decide) line_2⟩

/-! ## The hash function against its reference -/

theorem hash_loop_eq_foldl (bytes : List Nat) (hb : ∀ b ∈ bytes, 0 < b ∧ b < 256) (h : Nat) :
    hash_loop bytes h = bytes.foldl (fun acc c => (acc * 33 + c % 256) % ULONG_MOD) h := by
  induction bytes generalizing h with
  | nil => rfl
  | cons c rest ih =>
    have hc := (hb c (List.mem_cons_self _ _)).2
    have hstep : ((((h <<< 5) % ULONG_MOD) + h) % ULONG_MOD + c) % ULONG_MOD =
        (h * 33 + c % 256) % ULONG_MOD := by
      rw [Nat.shiftLeft_eq]
      simp only [ULONG_MOD]
      omega
    simp only [hash_loop, List.foldl_cons, hstep]
    exact ih (fun b hb2 => hb b (List.mem_cons_of_mem _ hb2)) _

/-- C11: for every key (the empty string included) and every int modulus max >= 1,
hash(key, max) returns a value in [0, max), and calls with equal key and equal max return
equal values. -/
theorem hash_in_range (key : CStr) (max : Int) (h1 : 1 ≤ max) (h2 : max ≤ INT_MAX) :
    (∃ i : Nat, hash key max = .ok i ∧ 0 ≤ (i : Int) ∧ (i : Int) < max) ∧
    (∃ i : Nat, hash CStr.empty max = .ok i ∧ (i : Int) < max) ∧
    ∀ key2 max2, key2 = key → max2 = max → hash key2 max2 = hash key max := by
  refine ⟨⟨hidx key max, hash_eq key h1 h2, by omega, ?_⟩,
    ⟨hidx CStr.empty max, hash_eq CStr.empty h1 h2, ?_⟩, ?_⟩
  · have := hidx_lt key h1
    omega
  · have := hidx_lt CStr.empty h1
    omega
  · rintro key2 max2 rfl rfl
    rfl

/-- C12: for every key and every int max >= 1, hash(key, max) is the djb2 reference
(accumulator from 5381, acc = acc * 33 + c per byte with wrap-around at 64 bits, result
acc mod max); for the empty key it is 5381 mod max. -/
theorem hash_eq_djb2_reference (key : CStr) (max : Int) (h1 : 1 ≤ max) (h2 : max ≤ INT_MAX) :
    hash key max = .ok (djb2_reference key max.toNat) ∧
    hash CStr.empty max = .ok (5381 % max.toNat) := by
  refine ⟨?_, ?_⟩
  · rw [hash_eq key h1 h2, hidx, djb2_reference, hash_loop_eq_foldl key.bytes key.valid]
  · rw [hash_eq CStr.empty h1 h2]
    rfl

theorem hash_in_range_witness :
    (1 : Int) ≤ 1024 ∧ (1024 : Int) ≤ INT_MAX ∧
    (∃ i : Nat, hash line_1 1024 = .ok i ∧ 0 ≤ (i : Int) ∧ (i : Int) < 1024) ∧
    (∃ i : Nat, hash CStr.empty 1024 = .ok i ∧ (i : Int) < 1024) ∧
    ∀ key2 max2, key2 = line_1 → max2 = 1024 → hash key2 max2 = hash line_1 1024 :=
  ⟨by decide, by decide, hash_in_range line_1 1024 (by decide) (by decide)⟩

theorem hash_eq_djb2_reference_witness :
    hash line_1 1024 = .ok (djb2_reference line_1 (1024 : Int).toNat) ∧
    hash CStr.empty 1024 = .ok (5381 % (1024 : Int).toNat) :=
  hash_eq_djb2_reference line_1 1024 (by decide) (by decide)

example : hash line_1 1024 = .ok 349 := by decide

example : djb2_reference line_1 1024 = 349 := by decide

/-! ## Capacities outside 1..INT_MAX/2 -/

theorem hash_zero (k : CStr) : hash k 0 = .error .div_by_zero := by
  simp [hash, ULONG_MOD]

theorem hash_negative (k : CStr) {c : Int} (h1 : INT_MIN ≤ c) (h2 : c < 0) :
    ∃ i, hash k c = .ok i := by
  have hm : (c % (ULONG_MOD : Int)).toNat ≠ 0 := by
    simp only [ULONG_MOD, INT_MIN] at *
    omega
  exact ⟨hash_loop k.bytes 5381 % (c % (ULONG_MOD : Int)).toNat % UINT_MOD,
    by simp only [hash, if_neg hm]⟩

theorem create_no_slots {c : Int} (h : c ≤ 0) :
    create_hash_table c = { capacity := c, storage := [] } := by
  have : c.toNat = 0 := by omega
  simp [create_hash_table, this]

theorem insert_no_slots (k v : CStr) {c : Int} (h1 : INT_MIN ≤ c) (h2 : c < 0) :
    hash_table_insert { capacity := c, storage := [] } k v = .error .out_of_bounds := by
  obtain ⟨i, hi⟩ := hash_negative k h1 h2
  simp [hash_table_insert, hi]

theorem remove_no_slots (k : CStr) {c : Int} (h1 : INT_MIN ≤ c) (h2 : c < 0) :
    hash_table_remove { capacity := c, storage := [] } k = .error .out_of_bounds := by
  obtain ⟨i, hi⟩ := hash_negative k h1 h2
  simp [hash_table_remove, hi]

theorem retrieve_no_slots (k : CStr) {c : Int} (h1 : INT_MIN ≤ c) (h2 : c < 0) :
    hash_table_retrieve { capacity := c, storage := [] } k = .error .out_of_bounds := by
  obtain ⟨i, hi⟩ := hash_negative k h1 h2
  simp [hash_table_retrieve, hi]

theorem wrap_int_overflow {c : Int} (h1 : c ≤ INT_MAX) (h2 : INT_MAX < c * 2) :
    wrap_int (c * 2) = c * 2 - 4294967296 := by
  simp only [wrap_int, INT_MAX] at *
  omega

/-- C13 (amended): hash_table_resize has no overflow check and no explicit failure. For a
table with capacity slots whose doubled capacity exceeds INT_MAX, the new table is created
with the wrapped capacity 2 * capacity - 2^32, a negative number, and without slots; resize
returns that table when the old table has no entries, and otherwise stops at an access
outside the storage of the new table. -/
theorem resize_unchecked_overflow (ht : HashTable) (hs : shaped ht)
    (hov : INT_MAX < ht.capacity * 2) :
    ht.capacity * 2 - 4294967296 < 0 ∧
    (entry_count ht = 0 →
      hash_table_resize ht =
        .ok { capacity := ht.capacity * 2 - 4294967296, storage := [] }) ∧
    (entry_count ht ≠ 0 → hash_table_resize ht = .error .out_of_bounds) := by
  have hneg : ht.capacity * 2 - 4294967296 < 0 := by
    have := hs.2.1
    simp only [INT_MAX] at this
    omega
  have hmin : INT_MIN ≤ ht.capacity * 2 - 4294967296 := by
    have := hs.1
    simp only [INT_MIN, INT_MAX] at *
    omega
  have hr := resize_eq hs.2.2
  rw [wrap_int_overflow hs.2.1 hov, create_no_slots (le_of_lt hneg)] at hr
  refine ⟨hneg, fun h0 => ?_, fun h0 => ?_⟩
  · rw [entry_count_eq_length, List.length_eq_zero] at h0
    rw [hr, h0]
    rfl
  · rw [entry_count_eq_length] at h0
    rw [hr]
    cases he : entries ht with
    | nil => rw [he] at h0; exact absurd rfl h0
    | cons kv rest => simp only [insert_all, insert_no_slots kv.1 kv.2 hmin hneg]

/-- C13 as stated fails: for the table of capacity 2^30 and for the table of capacity
INT_MAX, hash_table_resize does not fail; it returns a table whose capacity has wrapped to
-2^31 and to -2. -/
theorem resize_returns_wrapped_capacity :
    hash_table_resize (create_hash_table 1073741824) =
      .ok { capacity := -2147483648, storage := [] } ∧
    hash_table_resize (create_hash_table 2147483647) =
      .ok { capacity := -2, storage := [] } := by
  have hw1 : wrap_int (1073741824 * 2) = -2147483648 := by decide
  have hw2 : wrap_int (2147483647 * 2) = -2 := by decide
  refine ⟨?_, ?_⟩
  · rw [resize_create, hw1]
    rfl
  · rw [resize_create, hw2]
    rfl

theorem resize_unchecked_overflow_witness :
    (create_hash_table 1073741824).capacity * 2 - 4294967296 < 0 ∧
    (entry_count (create_hash_table 1073741824) = 0 →
      hash_table_resize (create_hash_table 1073741824) =
        .ok { capacity := (create_hash_table 1073741824).capacity * 2 - 4294967296,
              storage := [] }) ∧
    (entry_count (create_hash_table 1073741824) ≠ 0 →
      hash_table_resize (create_hash_table 1073741824) = .error .out_of_bounds) :=
  resize_unchecked_overflow (create_hash_table 1073741824)
    (shaped_create (by decide) (by decide))
    (by show INT_MAX < (1073741824 : Int) * 2; decide)

/-- C14 (amended): create_hash_table has no capacity check and reports no error. For every
int capacity that is zero or negative it returns a table with that capacity and no bucket
slot; on that table insert, remove and retrieve do not complete: the index computation
divides by zero for capacity 0, and for a negative capacity the slot access is outside the
storage. -/
theorem create_unchecked_capacity (c : Int) (h1 : INT_MIN ≤ c) (h2 : c ≤ 0) (k v : CStr) :
    create_hash_table c = { capacity := c, storage := [] } ∧
    hash_table_insert (create_hash_table c) k v =
      .error (if c = 0 then .div_by_zero else .out_of_bounds) ∧
    hash_table_remove (create_hash_table c) k =
      .error (if c = 0 then .div_by_zero else .out_of_bounds) ∧
    hash_table_retrieve (create_hash_table c) k =
      .error (if c = 0 then .div_by_zero else .out_of_bounds) := by
  rw [create_no_slots h2]
  by_cases h0 : c = 0
  · subst h0
    simp [hash_table_insert, hash_table_remove, hash_table_retrieve, hash_zero]
  · have hneg : c < 0 := by omega
    simp only [if_neg h0, insert_no_slots k v h1 hneg, remove_no_slots k h1 hneg,
      retrieve_no_slots k h1 hneg, and_self]

/-- C14 as stated fails: create_hash_table(0) and create_hash_table(-1) return tables, of
capacity 0 and -1, and the operations on them reach the index computation modulo that
capacity. -/
theorem create_accepts_nonpositive_capacity :
    create_hash_table 0 = { capacity := 0, storage := [] } ∧
    hash_table_insert (create_hash_table 0) line_1 text_1 = .error .div_by_zero ∧
    hash_table_retrieve (create_hash_table 0) line_1 = .error .div_by_zero ∧
    hash_table_remove (create_hash_table 0) line_1 = .error .div_by_zero ∧
    create_hash_table (-1) = { capacity := -1, storage := [] } ∧
    hash line_1 (-1) = .ok 192299357 ∧
    hash_table_insert (create_hash_table (-1)) line_1 text_1 = .error .out_of_bounds := by
  decide

theorem create_unchecked_capacity_witness :
    INT_MIN ≤ (0 : Int) ∧ (0 : Int) ≤ 0 ∧
    create_hash_table 0 = { capacity := 0, storage := [] } ∧
    hash_table_insert (create_hash_table 0) line_1 text_1 =
      .error (if (0 : Int) = 0 then .div_by_zero else .out_of_bounds) ∧
    hash_table_remove (create_hash_table 0) line_1 =
      .error (if (0 : Int) = 0 then .div_by_zero else .out_of_bounds) ∧
    hash_table_retrieve (create_hash_table 0) line_1 =
      .error (if (0 : Int) = 0 then .div_by_zero else .out_of_bounds) :=
  ⟨by decide, by decide, create_unchecked_capacity 0 (by decide) (by decide) line_1 text_1⟩

/-! ## The shape of a chain after remove and insert -/

theorem remove_loop_split (k : CStr) (l1 l2 : Chain) (p : LinkedPair)
    (h1 : ∀ q ∈ l1, q.key ≠ k) (hp : p.key = k) (h2 : ∀ q ∈ l2, q.key ≠ k) :
    remove_loop k false (l1 ++ p :: l2) = .ok (l1 ++ l2) := by
  induction l1 with
  | nil => simp [remove_loop, hp, remove_loop_no_match k l2 h2]
  | cons x xs ih =>
    have hx : x.key ≠ k := h1 x (List.mem_cons_self _ _)
    simp [remove_loop, hx, ih (fun q hq => h1 q (List.mem_cons_of_mem _ hq))]

theorem remove_ok_split {ht : HashTable} (hs : shaped ht) (k : CStr) (l1 l2 : Chain)
    (p : LinkedPair) (hb : bucket ht (hidx k ht.capacity) = l1 ++ p :: l2)
    (h1 : ∀ q ∈ l1, q.key ≠ k) (hp : p.key = k) (h2 : ∀ q ∈ l2, q.key ≠ k) :
    hash_table_remove ht k =
      .ok ({ ht with storage := ht.storage.set (hidx k ht.capacity) (l1 ++ l2) }, []) := by
  obtain ⟨_, hslot⟩ := shaped_slot hs k
  rw [hb] at hslot
  simp only [hash_table_remove, hash_eq k hs.1 hs.2.1, hslot]
  cases l1 with
  | nil => simp [hp]
  | cons x xs =>
    have hx : x.key ≠ k := h1 x (List.mem_cons_self _ _)
    simp [hx, remove_loop_split k xs l2 p
      (fun q hq => h1 q (List.mem_cons_of_mem _ hq)) hp h2]

theorem chain_insert_split (k v : CStr) (l1 l2 : Chain) (p : LinkedPair)
    (h1 : ∀ q ∈ l1, q.key ≠ k) (hp : p.key = k) :
    chain_insert k v (l1 ++ p :: l2) = l1 ++ { key := p.key, value := v } :: l2 := by
  induction l1 with
  | nil => simp [chain_insert, hp]
  | cons x xs ih =>
    have hx : x.key ≠ k := h1 x (List.mem_cons_self _ _)
    simp [chain_insert, hx, ih (fun q hq => h1 q (List.mem_cons_of_mem _ hq))]

/-- C15: removing a key that a well-formed table contains turns the chain of bucket
hash(k, capacity), which is l1 ++ p :: l2 with p the entry of key k, into l1 ++ l2: that
one entry is unlinked and the others keep their order and values, wherever p stood (l1 or
l2 may be empty). -/
theorem remove_unlinks_one_entry (ht : HashTable) (hwf : well_formed ht) (k : CStr)
    (hk : has_key ht k) :
    ∃ t log i l1 p l2, hash_table_remove ht k = .ok (t, log) ∧
      hash k ht.capacity = .ok i ∧ bucket ht i = l1 ++ p :: l2 ∧ p.key = k ∧
      (∀ q ∈ l1, q.key ≠ k) ∧ (∀ q ∈ l2, q.key ≠ k) ∧ bucket t i = l1 ++ l2 := by
  have hs := wf_shaped hwf
  obtain ⟨hlt, _⟩ := shaped_slot hs k
  have hnd := (wf_bucket hwf _ hlt).2
  obtain ⟨q, hq, hqk⟩ := wf_has_key_bucket hwf hk
  obtain ⟨p, l1, l2, h1, hp, hsplit, _⟩ :=
    List.exists_of_eraseP (p := fun p => decide (p.key = k)) hq (by simpa using hqk)
  simp only [decide_eq_true_eq] at h1 hp
  have h2 : ∀ q ∈ l2, q.key ≠ k := by
    intro q hq2 e
    rw [hsplit, List.map_append, List.map_cons, List.nodup_append] at hnd
    have := (List.nodup_cons.1 hnd.2.1).1
    apply this
    rw [hp, ← e]
    exact List.mem_map_of_mem _ hq2
  refine ⟨_, _, hidx k ht.capacity, l1, p, l2, remove_ok_split hs k l1 l2 p hsplit h1 hp h2,
    hash_eq k hs.1 hs.2.1, hsplit, hp, h1, h2, ?_⟩
  rw [bucket_set _ _ _ _ hlt, if_pos rfl]

/-- C16: on a table with capacity slots (capacity an int >= 1), insert of (k, v) succeeds;
when the chain of bucket hash(k, capacity) has no entry with key k the new chain is the old
one followed by the new entry; when it is l1 ++ p :: l2 with p the first entry of key k,
the new chain is l1 ++ (p with value v) :: l2, so the keys and their order are kept. -/
theorem insert_chain_shape (ht : HashTable) (hs : shaped ht) (k v : CStr) :
    ∃ t i, hash_table_insert ht k v = .ok t ∧ hash k ht.capacity = .ok i ∧
      ((∀ p ∈ bucket ht i, p.key ≠ k) → bucket t i = bucket ht i ++ [create_pair k v]) ∧
      (∀ l1 p l2, bucket ht i = l1 ++ p :: l2 → (∀ q ∈ l1, q.key ≠ k) → p.key = k →
        bucket t i = l1 ++ { key := p.key, value := v } :: l2) ∧
      ((∃ p ∈ bucket ht i, p.key = k) →
        (bucket t i).map (fun p => p.key) = (bucket ht i).map (fun p => p.key)) := by
  obtain ⟨hlt, _⟩ := shaped_slot hs k
  refine ⟨_, hidx k ht.capacity, insert_ok hs k v, hash_eq k hs.1 hs.2.1, ?_, ?_, ?_⟩
  · intro hno
    rw [bucket_set _ _ _ _ hlt, if_pos rfl, chain_insert_no_match k v _ hno]
  · intro l1 p l2 hb h1 hp
    rw [bucket_set _ _ _ _ hlt, if_pos rfl, hb, chain_insert_split k v l1 l2 p h1 hp]
  · rintro ⟨p, hp, hpk⟩
    rw [bucket_set _ _ _ _ hlt, if_pos rfl, chain_insert_keys,
      if_pos (List.mem_map.2 ⟨p, hp, hpk⟩)]

/-! ## Frame, round trip and bounds -/

theorem remove_loop_cases (k : CStr) (b : Bool) (c : Chain) :
    (∃ c2, remove_loop k b c = .ok c2) ∨ remove_loop k b c = .error .use_after_free := by
  induction c generalizing b with
  | nil => exact Or.inl ⟨[], rfl⟩
  | cons p rest ih =>
    by_cases hp : p.key = k
    · cases b with
      | true => exact Or.inr (by simp [remove_loop, hp])
      | false =>
        rcases ih true with ⟨c2, h⟩ | h
        · exact Or.inl ⟨c2, by simp [remove_loop, hp, h]⟩
        · exact Or.inr (by simp [remove_loop, hp, h])
    · rcases ih false with ⟨c2, h⟩ | h
      · exact Or.inl ⟨p :: c2, by simp [remove_loop, hp, h]⟩
      · exact Or.inr (by simp [remove_loop, hp, h])

/-- Every outcome of hash_table_remove on a table with capacity slots: the table with a new
chain in the bucket of the key, or the write into a destroyed pair. -/
theorem remove_cases {ht : HashTable} (hs : shaped ht) (k : CStr) :
    (∃ c2 log, hash_table_remove ht k =
      .ok ({ ht with storage := ht.storage.set (hidx k ht.capacity) c2 }, log)) ∨
    hash_table_remove ht k = .error .use_after_free := by
  obtain ⟨_, hslot⟩ := shaped_slot hs k
  simp only [hash_table_remove, hash_eq k hs.1 hs.2.1, hslot]
  generalize bucket ht (hidx k ht.capacity) = c at hslot
  cases c with
  | nil => exact Or.inl ⟨[], _, by rw [set_slot_self hslot]⟩
  | cons p rest =>
    by_cases hp : p.key = k
    · exact Or.inl ⟨rest, [], by simp [hp]⟩
    · rcases remove_loop_cases k false rest with ⟨c2, h⟩ | h
      · exact Or.inl ⟨p :: c2, [], by simp [hp, h]⟩
      · exact Or.inr (by simp [hp, h])

theorem bucket_set_ne (ht : HashTable) (i j : Nat) (c : Chain) (hij : j ≠ i) :
    bucket { ht with storage := ht.storage.set i c } j = bucket ht j := by
  simp only [bucket, List.getElem?_set_ne (Ne.symm hij)]

/-- C17: on a table with capacity slots (capacity an int >= 1), insert succeeds and, like
every remove that returns, leaves the capacity, the number of slots and the chain of every
bucket other than bucket hash(k, capacity) as they were: nothing is resized or rehashed.
Remove returns whenever the keys of that bucket's chain are pairwise distinct; its only
other outcome is the write into a destroyed pair. -/
theorem insert_remove_frame (ht : HashTable) (hs : shaped ht) (k v : CStr) :
    ∃ i, hash k ht.capacity = .ok i ∧
      (∃ t, hash_table_insert ht k v = .ok t ∧ t.capacity = ht.capacity ∧
        t.storage.length = ht.storage.length ∧ ∀ j, j ≠ i → bucket t j = bucket ht j) ∧
      (∀ t log, hash_table_remove ht k = .ok (t, log) →
        t.capacity = ht.capacity ∧ t.storage.length = ht.storage.length ∧
        ∀ j, j ≠ i → bucket t j = bucket ht j) ∧
      (((bucket ht i).map (fun p => p.key)).Nodup →
        ∃ t log, hash_table_remove ht k = .ok (t, log)) ∧
      (∀ f, hash_table_remove ht k = .error f → f = .use_after_free) := by
  refine ⟨hidx k ht.capacity, hash_eq k hs.1 hs.2.1, ?_, ?_, ?_, ?_⟩
  · exact ⟨_, insert_ok hs k v, rfl, by simp, fun j hj => bucket_set_ne ht _ j _ hj⟩
  · intro t log h
    rcases remove_cases hs k with ⟨c2, log2, h2⟩ | h2
    · rw [h2] at h
      injection h with h
      injection h with h3 _
      subst h3
      exact ⟨rfl, by simp, fun j hj => bucket_set_ne ht _ j _ hj⟩
    · rw [h2] at h
      cases h
  · intro hnd
    exact ⟨_, _, remove_ok hs k hnd⟩
  · intro f h
    rcases remove_cases hs k with ⟨c2, log2, h2⟩ | h2
    · rw [h2] at h
      cases h
    · rw [h2] at h
      injection h with h
      exact h.symm

/-- C19: on a table with capacity slots (capacity an int >= 1) whose bucket
hash(k, capacity) holds no entry with key k, insert of (k, v) followed by remove of k
returns the original table: same capacity, same chains. -/
theorem remove_after_insert (ht : HashTable) (hs : shaped ht) (k v : CStr)
    (hno : ∀ i, hash k ht.capacity = .ok i → ∀ p ∈ bucket ht i, p.key ≠ k) :
    ∃ t log, hash_table_insert ht k v = .ok t ∧ hash_table_remove t k = .ok (ht, log) := by
  obtain ⟨hlt, hslot⟩ := shaped_slot hs k
  have hn := hno _ (hash_eq k hs.1 hs.2.1)
  have hs2 := shaped_set hs (hidx k ht.capacity)
    (chain_insert k v (bucket ht (hidx k ht.capacity)))
  refine ⟨_, [], insert_ok hs k v, ?_⟩
  have hb : bucket { ht with
      storage := ht.storage.set (hidx k ht.capacity)
        (chain_insert k v (bucket ht (hidx k ht.capacity))) } (hidx k ht.capacity) =
      bucket ht (hidx k ht.capacity) ++ create_pair k v :: [] := by
    rw [bucket_set _ _ _ _ hlt, if_pos rfl, chain_insert_no_match k v _ hn]
  rw [remove_ok_split hs2 k _ [] (create_pair k v) hb hn rfl (by simp)]
  simp only [List.append_nil, List.set_set, set_slot_self hslot]

/-- C20: on a table with capacity slots (capacity an int >= 1) the bucket index computed
from the key is inside the storage; insert and retrieve return; remove never stops at the
index computation, at an access outside the storage or at an unset pointer; and when the
loop of insert ends on a non-empty chain without a match, prev is the last entry of the
chain. -/
theorem operations_stay_in_bounds (ht : HashTable) (hs : shaped ht) (k v : CStr) :
    ∃ i, hash k ht.capacity = .ok i ∧ i < ht.storage.length ∧
      (∃ t, hash_table_insert ht k v = .ok t) ∧
      (∃ r, hash_table_retrieve ht k = .ok r) ∧
      hash_table_remove ht k ≠ .error .out_of_bounds ∧
      hash_table_remove ht k ≠ .error .unset_pointer ∧
      hash_table_remove ht k ≠ .error .div_by_zero ∧
      ∀ chain, ht.storage[i]? = some chain → chain ≠ [] →
        (insert_loop k v chain 0 none).2.2 = false →
        (insert_loop k v chain 0 none).2.1 = some (chain.length - 1) := by
  obtain ⟨hlt, _⟩ := shaped_slot hs k
  have hrem : ∀ f, hash_table_remove ht k = .error f → f = .use_after_free := by
    intro f h
    rcases remove_cases hs k with ⟨c2, log2, h2⟩ | h2
    · rw [h2] at h
      cases h
    · rw [h2] at h
      injection h with h
      exact h.symm
  refine ⟨hidx k ht.capacity, hash_eq k hs.1 hs.2.1, hlt, ⟨_, insert_ok hs k v⟩,
    ⟨_, retrieve_ok hs k⟩, fun h => ?_, fun h => ?_, fun h => ?_, ?_⟩
  · exact absurd (hrem _ h) (by decide)
  · exact absurd (hrem _ h) (by decide)
  · exact absurd (hrem _ h) (by decide)
  · intro chain _ hne hins
    by_cases hm : ∃ q ∈ chain, q.key = k
    · obtain ⟨j, hj⟩ := insert_loop_match k v chain hm 0 none
      rw [hj] at hins
      cases hins
    · have hn : ∀ q ∈ chain, q.key ≠ k := fun q hq e => hm ⟨q, hq, e⟩
      rw [insert_loop_no_match k v chain hn 0 none]
      simp [hne]

/-! ## How resize redistributes the chains -/

theorem insert_all_buckets (ops : List (CStr × CStr)) {ht : HashTable} (hs : shaped ht)
    (hnd : (ops.map (fun kv => kv.1)).Nodup)
    (hnew : ∀ kv ∈ ops, retrieve_loop kv.1 (bucket ht (hidx kv.1 ht.capacity)) = none) :
    ∃ t, insert_all ht ops = .ok t ∧ t.capacity = ht.capacity ∧
      ∀ j, bucket t j = bucket ht j ++
        (ops.filter (fun kv => decide (hidx kv.1 ht.capacity = j))).map
          (fun kv => create_pair kv.1 kv.2) := by
  induction ops generalizing ht with
  | nil => exact ⟨ht, rfl, rfl, fun j => by simp⟩
  | cons kv rest ih =>
    rw [List.map_cons, List.nodup_cons] at hnd
    have hlt := (shaped_slot hs kv.1).1
    have hkv := (retrieve_loop_eq_none _ _).1 (hnew kv (List.mem_cons_self _ _))
    have hstep : ∀ kv2 ∈ rest,
        retrieve_loop kv2.1 (bucket { ht with
          storage := ht.storage.set (hidx kv.1 ht.capacity)
            (chain_insert kv.1 kv.2 (bucket ht (hidx kv.1 ht.capacity))) }
          (hidx kv2.1 ht.capacity)) = none := by
      intro kv2 h2
      have hne : kv2.1 ≠ kv.1 := by
        intro e
        apply hnd.1
        rw [← e]
        exact List.mem_map_of_mem _ h2
      rw [retrieve_insert hs kv.1 kv.2 kv2.1, if_neg hne]
      exact hnew kv2 (List.mem_cons_of_mem _ h2)
    obtain ⟨t, ht1, ht2, ht3⟩ := ih (shaped_set hs (hidx kv.1 ht.capacity)
      (chain_insert kv.1 kv.2 (bucket ht (hidx kv.1 ht.capacity)))) hnd.2 hstep
    refine ⟨t, ?_, ht2, fun j => ?_⟩
    · simp only [insert_all, insert_ok hs]
      exact ht1
    · rw [ht3 j, bucket_set _ _ _ _ hlt, chain_insert_no_match _ _ _ hkv]
      by_cases hij : hidx kv.1 ht.capacity = j
      · subst hij
        simp [List.filter_cons]
      · simp [List.filter_cons, hij]

theorem filter_flatten_local (P : LinkedPair → Bool) (L : List Chain) (i0 : Nat)
    (h : ∀ i, (hi : i < L.length) → ∀ p ∈ L[i], P p = true → i = i0) :
    L.flatten.filter P = ((L[i0]?).getD []).filter P := by
  induction L generalizing i0 with
  | nil => simp
  | cons x xs ih =>
    rw [List.flatten_cons, List.filter_append]
    cases i0 with
    | zero =>
      have hx := ih xs.length (fun i hi p hp hP => by
        have := h (i + 1) (by simp; omega) p (by simpa using hp) hP
        omega)
      rw [hx]
      simp
    | succ n =>
      have hx : x.filter P = [] := by
        rw [List.filter_eq_nil_iff]
        intro p hp hP
        have := h 0 (by simp) p (by simpa using hp) hP
        omega
      have := ih n (fun i hi p hp hP => by
        have := h (i + 1) (by simp; omega) p (by simpa using hp) hP
        omega)
      rw [hx, this]
      simp

theorem hidx_double_mod (k : CStr) (c : Int) (h1 : 1 ≤ c) :
    hidx k (c * 2) % c.toNat = hidx k c := by
  have : (c * 2).toNat = c.toNat * 2 := by omega
  simp only [hidx, this]
  exact Nat.mod_mul_right_mod _ _ _

theorem mod_eq_cases {i j c : Nat} (hj : j < 2 * c) (h : j % c = i) : j = i ∨ j = i + c := by
  by_cases hjc : j < c
  · rw [Nat.mod_eq_of_lt hjc] at h
    exact Or.inl h
  · have h2 : j % c = (j - c) % c := Nat.mod_eq_sub_mod (by omega)
    rw [h2, Nat.mod_eq_of_lt (by omega)] at h
    exact Or.inr (by omega)

/-- The chains of the table that resize returns, for a well-formed table whose doubled
capacity is an int. -/
theorem resize_buckets {ht : HashTable} (hwf : well_formed ht)
    (hrep : ht.capacity * 2 ≤ INT_MAX) :
    ∃ t, hash_table_resize ht = .ok t ∧ t.capacity = ht.capacity * 2 ∧
      ∀ j, bucket t j = (bucket ht (j % ht.capacity.toNat)).filter
        (fun p => decide (hidx p.key (ht.capacity * 2) = j)) := by
  have hw := wrap_int_double hwf.1 hrep
  have hnew : shaped (create_hash_table (ht.capacity * 2)) :=
    shaped_create (by have := hwf.1; omega) hrep
  have hnd : ((entries ht).map (fun kv => kv.1)).Nodup := by
    have := wf_keys_nodup hwf
    simpa [entries, List.map_map, Function.comp_def] using this
  obtain ⟨t, ht1, ht2, ht3⟩ := insert_all_buckets (entries ht) hnew hnd
    (fun kv _ => by rw [bucket_create]; rfl)
  refine ⟨t, by rw [resize_eq hwf.2.2.1, hw]; exact ht1, ht2, fun j => ?_⟩
  have hmk : (fun p : LinkedPair => create_pair p.key p.value) = id := by
    funext p
    rfl
  rw [ht3 j, bucket_create, List.nil_append]
  simp only [entries, List.filter_map, List.map_map, Function.comp_def, create_hash_table]
  rw [hmk, List.map_id]
  rw [filter_flatten_local _ ht.storage (j % ht.capacity.toNat)]
  · rfl
  · intro i hi p hp hP
    simp only [decide_eq_true_eq] at hP
    have hok := (hwf.2.2.2 i hi).1 p hp
    rw [hash_eq p.key hwf.1 hwf.2.1] at hok
    injection hok with hok
    rw [← hP, hidx_double_mod p.key ht.capacity hwf.1, hok]

theorem wf_bucket_idx {ht : HashTable} (hwf : well_formed ht) {i : Nat} {p : LinkedPair}
    (hp : p ∈ bucket ht i) : hidx p.key ht.capacity = i := by
  by_cases hi : i < ht.storage.length
  · have hok := (wf_bucket hwf i hi).1 p hp
    rw [hash_eq p.key hwf.1 hwf.2.1] at hok
    injection hok
  · simp [bucket, List.getElem?_eq_none (Nat.le_of_not_lt hi)] at hp

/-- C18: for a well-formed table of capacity c whose doubled capacity is an int, resize
returns a table of capacity 2c in which the chain of every bucket j is the chain of old
bucket j mod c filtered, in its order, to the entries whose key hashes to j under 2c; an
entry of old bucket i lands in new bucket i or i + c and in no other. -/
theorem resize_splits_buckets (ht : HashTable) (hwf : well_formed ht)
    (hrep : ht.capacity * 2 ≤ INT_MAX) :
    ∃ t, hash_table_resize ht = .ok t ∧ t.capacity = 2 * ht.capacity ∧
      (∀ j, bucket t j = (bucket ht (j % ht.storage.length)).filter
        (fun p => decide (hash p.key (2 * ht.capacity) = .ok j))) ∧
      (∀ i p, p ∈ bucket ht i → p ∈ bucket t i ∨ p ∈ bucket t (i + ht.storage.length)) ∧
      (∀ i j p, p ∈ bucket ht i → p ∈ bucket t j →
        j = i ∨ j = i + ht.storage.length) := by
  obtain ⟨t, ht1, ht2, hb⟩ := resize_buckets hwf hrep
  have hc1 : 1 ≤ ht.capacity * 2 := by have := hwf.1; omega
  have hlen : ht.storage.length = ht.capacity.toNat := hwf.2.2.1
  have hlt2 : ∀ k : CStr, hidx k (ht.capacity * 2) < 2 * ht.storage.length := by
    intro k
    have := hidx_lt k hc1
    omega
  refine ⟨t, ht1, by rw [ht2]; ring, fun j => ?_, fun i p hp => ?_, fun i j p hp hpj => ?_⟩
  · rw [hb j, hlen]
    apply List.filter_congr
    intro p _
    rw [mul_comm 2 ht.capacity, hash_eq p.key hc1 hrep]
    simp
  · have hi := wf_bucket_idx hwf hp
    have hmod := hidx_double_mod p.key ht.capacity hwf.1
    rw [hi, ← hlen] at hmod
    have hin : p ∈ bucket t (hidx p.key (ht.capacity * 2)) := by
      rw [hb, List.mem_filter, ← hlen, hmod]
      exact ⟨hp, by simp⟩
    rcases mod_eq_cases (hlt2 p.key) hmod with h | h
    · rw [h] at hin; exact Or.inl hin
    · rw [h] at hin; exact Or.inr hin
  · rw [hb, List.mem_filter] at hpj
    have hj : hidx p.key (ht.capacity * 2) = j := by simpa using hpj.2
    have hi := wf_bucket_idx hwf hp
    have hmod := hidx_double_mod p.key ht.capacity hwf.1
    rw [hi, ← hlen, hj] at hmod
    have := hlt2 p.key
    rw [hj] at this
    exact mod_eq_cases this hmod

/-! ## The later theorems at the data of main -/

theorem remove_unlinks_one_entry_witness :
    well_formed demo_table ∧ has_key demo_table line_1 ∧
    ∃ t log i l1 p l2, hash_table_remove demo_table line_1 = .ok (t, log) ∧
      hash line_1 demo_table.capacity = .ok i ∧ bucket demo_table i = l1 ++ p :: l2 ∧
      p.key = line_1 ∧ (∀ q ∈ l1, q.key ≠ line_1) ∧ (∀ q ∈ l2, q.key ≠ line_1) ∧
      bucket t i = l1 ++ l2 :=
  ⟨by decide, by decide, remove_unlinks_one_entry demo_table (by decide) line_1 (by decide)⟩

theorem insert_chain_shape_witness :
    shaped demo_table ∧
    ∃ t i, hash_table_insert demo_table line_4 text_1 = .ok t ∧
      hash line_4 demo_table.capacity = .ok i ∧
      ((∀ p ∈ bucket demo_table i, p.key ≠ line_4) →
        bucket t i = bucket demo_table i ++ [create_pair line_4 text_1]) ∧
      (∀ l1 p l2, bucket demo_table i = l1 ++ p :: l2 → (∀ q ∈ l1, q.key ≠ line_4) →
        p.key = line_4 → bucket t i = l1 ++ { key := p.key, value := text_1 } :: l2) ∧
      ((∃ p ∈ bucket demo_table i, p.key = line_4) →
        (bucket t i).map (fun p => p.key) = (bucket demo_table i).map (fun p => p.key)) :=
  ⟨by decide, insert_chain_shape demo_table (by decide) line_4 text_1⟩

theorem insert_remove_frame_witness :
    shaped demo_table ∧
    ∃ i, hash line_3 demo_table.capacity = .ok i ∧
      (∃ t, hash_table_insert demo_table line_3 text_1 = .ok t ∧
        t.capacity = demo_table.capacity ∧
        t.storage.length = demo_table.storage.length ∧
        ∀ j, j ≠ i → bucket t j = bucket demo_table j) ∧
      (∀ t log, hash_table_remove demo_table line_3 = .ok (t, log) →
        t.capacity = demo_table.capacity ∧
        t.storage.length = demo_table.storage.length ∧
        ∀ j, j ≠ i → bucket t j = bucket demo_table j) ∧
      (((bucket demo_table i).map (fun p => p.key)).Nodup →
        ∃ t log, hash_table_remove demo_table line_3 = .ok (t, log)) ∧
      (∀ f, hash_table_remove demo_table line_3 = .error f → f = .use_after_free) :=
  ⟨by decide, insert_remove_frame demo_table (by decide) line_3 text_1⟩

theorem resize_splits_buckets_witness :
    well_formed demo_table ∧ demo_table.capacity * 2 ≤ INT_MAX ∧
    ∃ t, hash_table_resize demo_table = .ok t ∧ t.capacity = 2 * demo_table.capacity ∧
      (∀ j, bucket t j = (bucket demo_table (j % demo_table.storage.length)).filter
        (fun p => decide (hash p.key (2 * demo_table.capacity) = .ok j))) ∧
      (∀ i p, p ∈ bucket demo_table i →
        p ∈ bucket t i ∨ p ∈ bucket t (i + demo_table.storage.length)) ∧
      (∀ i j p, p ∈ bucket demo_table i → p ∈ bucket t j →
        j = i ∨ j = i + demo_table.storage.length) :=
  ⟨by decide, by decide, resize_splits_buckets demo_table (by decide) (by decide)⟩

theorem remove_after_insert_witness :
    shaped demo_table ∧
    ∃ t log, hash_table_insert demo_table line_4 text_1 = .ok t ∧
      hash_table_remove t line_4 = .ok (demo_table, log) :=
  ⟨by decide, remove_after_insert demo_table (by decide) line_4 text_1 (fun i hi => by
    have h0 : hash line_4 demo_table.capacity = .ok 0 := by decide
    rw [h0] at hi
    injection hi with hi
    subst hi
    decide)⟩

theorem operations_stay_in_bounds_witness :
    shaped demo_table ∧
    ∃ i, hash line_4 demo_table.capacity = .ok i ∧ i < demo_table.storage.length ∧
      (∃ t, hash_table_insert demo_table line_4 text_1 = .ok t) ∧
      (∃ r, hash_table_retrieve demo_table line_4 = .ok r) ∧
      hash_table_remove demo_table line_4 ≠ .error .out_of_bounds ∧
      hash_table_remove demo_table line_4 ≠ .error .unset_pointer ∧
      hash_table_remove demo_table line_4 ≠ .error .div_by_zero ∧
      ∀ chain, demo_table.storage[i]? = some chain → chain ≠ [] →
        (insert_loop line_4 text_1 chain 0 none).2.2 = false →
        (insert_loop line_4 text_1 chain 0 none).2.1 = some (chain.length - 1) :=
  ⟨by decide, operations_stay_in_bounds demo_table (by decide) line_4 text_1⟩

example : (hash_table_resize demo_table).map
      (fun t => t.storage.map (fun c => c.map (fun p => p.key))) =
    .ok [[], [line_1], [line_2], [line_3]] := by decide

end HashTables
